import Mathlib

/-!
Verification of the docx-to-exam extraction engine (parseWordToExam and its
helpers).  The TypeScript source is shallowly embedded: JavaScript strings are
modelled as Lean strings (code points; all text of interest lies in the basic
multilingual plane, where JavaScript UTF-16 indices coincide with code-point
indices), the regular expressions of the source are modelled by hand-written
matchers reproducing their backtracking behaviour on the character classes
involved, and the mutable classifier context is threaded as an explicit state
value.
-/

namespace DeTiengAnh

/-! ## JavaScript character classes and string primitives -/

/-- The JavaScript regular-expression class backslash-s (also the set trimmed
by String.prototype.trim). -/
def isJsWs (c : Char) : Bool :=
  c = ' ' || c = '\t' || c = '\n' || c = '\r' ||
  c.toNat = 0x0B || c.toNat = 0x0C || c.toNat = 0xA0 || c.toNat = 0x1680 ||
  (0x2000 ≤ c.toNat && c.toNat ≤ 0x200A) ||
  c.toNat = 0x2028 || c.toNat = 0x2029 || c.toNat = 0x202F ||
  c.toNat = 0x205F || c.toNat = 0x3000 || c.toNat = 0xFEFF

/-- JavaScript line terminators, the characters not matched by the dot. -/
def isLineTerm (c : Char) : Bool :=
  c = '\n' || c = '\r' || c.toNat = 0x2028 || c.toNat = 0x2029

/-- Simple lower-casing covering ASCII, Latin-1 and the Latin Extended-A
range (enough for the Vietnamese letters appearing in the patterns). -/
def jsLower (c : Char) : Char :=
  if 'A' ≤ c ∧ c ≤ 'Z' then Char.ofNat (c.toNat + 32)
  else if 0xC0 ≤ c.toNat ∧ c.toNat ≤ 0xDE ∧ c.toNat ≠ 0xD7 then Char.ofNat (c.toNat + 32)
  else if 0x100 ≤ c.toNat ∧ c.toNat ≤ 0x177 ∧ c.toNat % 2 = 0 then Char.ofNat (c.toNat + 1)
  else c

/-- Simple upper-casing (ASCII), used for the shading fill comparison. -/
def jsUpper (c : Char) : Char :=
  if 'a' ≤ c ∧ c ≤ 'z' then Char.ofNat (c.toNat - 32) else c

/-- String.prototype.trim on a character list. -/
def trimChars (cs : List Char) : List Char :=
  ((cs.dropWhile isJsWs).reverse.dropWhile isJsWs).reverse

/-- String.prototype.trim. -/
def jsTrim (s : String) : String := ⟨trimChars s.data⟩

/-- replace of every maximal run of backslash-s characters by one space,
written with an explicit previous-character-was-whitespace flag so that the
recursion is structural.  The flag true means the current whitespace run has
already emitted its single space. -/
def collapseWsAux : Bool → List Char → List Char
  | _, [] => []
  | prevWs, c :: rest =>
    if isJsWs c then
      (if prevWs then [] else [' ']) ++ collapseWsAux true rest
    else c :: collapseWsAux false rest

/-- replace(backslash-s+, one space) on a character list. -/
def collapseWs (cs : List Char) : List Char := collapseWsAux false cs

/-- replace of every maximal run of tabs by one space. -/
def collapseTabsAux : Bool → List Char → List Char
  | _, [] => []
  | prevTab, c :: rest =>
    if c = '\t' then
      (if prevTab then [] else [' ']) ++ collapseTabsAux true rest
    else c :: collapseTabsAux false rest

/-- replace(tab+, one space) on a character list. -/
def collapseTabs (cs : List Char) : List Char := collapseTabsAux false cs

/-- Case-insensitive literal prefix match; on success returns the rest of the
input. -/
def stripPrefixCI : List Char → List Char → Option (List Char)
  | [], cs => some cs
  | _ :: _, [] => none
  | p :: ps, c :: cs => if jsLower c = jsLower p then stripPrefixCI ps cs else none

/-- Exact literal prefix test. -/
def startsWithChars : List Char → List Char → Bool
  | [], _ => true
  | _ :: _, [] => false
  | p :: ps, c :: cs => p = c && startsWithChars ps cs

/-- String.prototype.includes: substring occurrence test. -/
def hasSubstr (pat : List Char) : List Char → Bool
  | [] => pat.isEmpty
  | c :: rest => startsWithChars pat (c :: rest) || hasSubstr pat rest

/-- Decimal digit-run value, as parseInt with radix ten computes it. -/
def parseNatDigits (ds : List Char) : Nat :=
  ds.foldl (fun acc c => 10 * acc + (c.toNat - '0'.toNat)) 0

/-! ## Data model (the TypeScript interfaces) -/

/-- A formatted run inside a paragraph: ParagraphRun of the source. -/
structure ParagraphRun where
  text : String
  hasHighlight : Bool
  hasUnderline : Bool
  hasBold : Bool
  start : Nat
  «end» : Nat
deriving DecidableEq

/-- ParagraphData of the source: concatenated text plus its runs. -/
structure ParagraphData where
  text : String
  runs : List ParagraphRun
deriving DecidableEq

/-- SectionInfo of the source. -/
structure SectionInfo where
  letter : String
  name : String
  points : String
deriving DecidableEq

/-- QuestionOption of the source.  A letter is a single character A to D. -/
structure QuestionOption where
  letter : Char
  text : String
  textWithUnderline : String
  isCorrect : Bool
deriving DecidableEq

/-- The question type strings used by the source. -/
inductive QType where
  | unknown
  | multiple_choice
  | writing
deriving DecidableEq

/-- Question of the source. -/
structure Question where
  number : Nat
  «section» : Option SectionInfo
  part : Option String
  text : String
  options : List QuestionOption
  correctAnswer : Option String
  type : QType
  passage : String
deriving DecidableEq

/-- A section record produced by the grouper. -/
structure ExamSection where
  name : String
  description : String
  points : String
  questions : List Question
  readingPassage : String
deriving DecidableEq

/-- ExamData of the source; answers is the object mapping question numbers to
answer values, modelled as an association list in key-insertion order. -/
structure ExamData where
  title : String
  timeLimit : Nat
  sections : List ExamSection
  questions : List Question
  answers : List (Nat × String)
deriving DecidableEq

/-- Assignment to the answers object: replace the key if present, otherwise
append it. -/
def setAnswer : List (Nat × String) → Nat → String → List (Nat × String)
  | [], n, v => [(n, v)]
  | (k, w) :: rest, n, v =>
    if k = n then (k, v) :: rest else (k, w) :: setAnswer rest n v

/-- Lookup in the answers object. -/
def lookupAnswer : List (Nat × String) → Nat → Option String
  | [], _ => none
  | (k, w) :: rest, n => if k = n then some w else lookupAnswer rest n

/-! ## Stable sort (Array.prototype.sort with a consistent comparator) -/

/-- Stable insertion of an element by a numeric key: the element goes before
the first existing element of greater-or-equal key. -/
def insertK (key : α → Nat) (x : α) : List α → List α
  | [] => [x]
  | y :: ys => if key x ≤ key y then x :: y :: ys else y :: insertK key x ys

/-- Stable sort by a numeric key, modelling Array.prototype.sort with the
comparator key a minus key b (stable per the ECMAScript specification). -/
def sortK (key : α → Nat) (l : List α) : List α := l.foldr (insertK key) []

/-! ## The regular-expression matchers of the classifier -/

/-- ASCII letter (the class A-to-Z under the i flag). -/
def isAsciiLetter (c : Char) : Bool :=
  ('A' ≤ c && c ≤ 'Z') || ('a' ≤ c && c ≤ 'z')

/-- Index of the first colon, if any. -/
def findColonIdx : List Char → Option Nat
  | [] => none
  | c :: rest =>
    if c = ':' then some 0 else (findColonIdx rest).map (· + 1)

/-- Length consumed by POINT followed by an optional greedy S, both
case-insensitive, at the head of the input; none when it does not match. -/
def pointsAt (t : List Char) : Option Nat :=
  match stripPrefixCI "POINT".data t with
  | none => none
  | some r =>
    match r with
    | c :: _ => if jsLower c = 's' then some 6 else some 5
    | [] => some 5

/-- Lazy scan of dot-star-question-mark POINT S-question-mark: the earliest
offset k whose suffix starts with POINT, every skipped character being
matchable by the dot (not a line terminator); returns the offset together
with the length of the POINT(S) part. -/
def lazyPointsScan : List Char → Option (Nat × Nat)
  | [] => none
  | c :: rest =>
    match pointsAt (c :: rest) with
    | some len => some (0, len)
    | none =>
      if isLineTerm c then none
      else (lazyPointsScan rest).map (fun p => (p.1 + 1, p.2))

/-- Backtracking loop for the points tail: try the given whitespace-star
length first, then shorter ones. -/
def sectionPointsGo (s5 : List Char) : Nat → Option (List Char)
  | 0 =>
    match lazyPointsScan s5 with
    | some (k, len) => some (s5.take (k + len))
    | none => none
  | j + 1 =>
    match lazyPointsScan (s5.drop (j + 1)) with
    | some (k, len) => some ((s5.drop (j + 1)).take (k + len))
    | none => sectionPointsGo s5 j

/-- The tail of the SECTION pattern after the colon: whitespace-star followed
by the lazy points group, the star backtracking from its maximal run.
Returns the text of capture group three. -/
def sectionPointsTail (s5 : List Char) : Option (List Char) :=
  sectionPointsGo s5 ((s5.takeWhile isJsWs).length)

/-- Attempt of the SECTION header pattern at the current position: literal
SECTION, whitespace-plus, a captured ASCII letter, a dot, whitespace-star, a
captured nonempty colon-free group, a colon, then the points tail.  Returns
the three capture groups (letter, raw name, raw points). -/
def matchSectionAt (cs : List Char) : Option (Char × List Char × List Char) :=
  match stripPrefixCI "SECTION".data cs with
  | none => none
  | some s1 =>
    let ws := s1.takeWhile isJsWs
    if ws.isEmpty then none
    else
      match s1.drop ws.length with
      | c :: s3 =>
        if isAsciiLetter c then
          match s3 with
          | '.' :: s4 =>
            (match findColonIdx s4 with
             | none => none
             | some c4 =>
               if c4 = 0 then none
               else
                 let w := (s4.takeWhile isJsWs).length
                 let nameStart := min w (c4 - 1)
                 let name := (s4.drop nameStart).take (c4 - nameStart)
                 match sectionPointsTail (s4.drop (c4 + 1)) with
                 | none => none
                 | some pts => some (c, name, pts))
          | _ => none
        else none
      | [] => none

/-- Unanchored leftmost search for the SECTION header pattern. -/
def matchSectionFrom : List Char → Option (Char × List Char × List Char)
  | [] => matchSectionAt []
  | c :: rest =>
    match matchSectionAt (c :: rest) with
    | some r => some r
    | none => matchSectionFrom rest

/-- Roman-numeral characters I, V, X under the i flag. -/
def isRomanChar (c : Char) : Bool :=
  jsLower c = 'i' || jsLower c = 'v' || jsLower c = 'x'

/-- Truthiness of the anchored part-header pattern: a Roman-numeral run, a
dot, whitespace-star, then at least one character matchable by the dot
(whitespace-star backtracks, so any position within the run may start the
final group). -/
def partMatches (cs : List Char) : Bool :=
  let r := cs.takeWhile isRomanChar
  if r.isEmpty then false
  else
    match cs.drop r.length with
    | '.' :: rest =>
      let w := (rest.takeWhile isJsWs).length
      (List.range (w + 1)).any (fun j =>
        match (rest.drop j).head? with
        | some c => !isLineTerm c
        | none => false)
    | _ => false

/-- The fixed instructional keywords gating part headers. -/
def partKeyword (cs : List Char) : Bool :=
  let low := cs.map jsLower
  hasSubstr "circle".data low || hasSubstr "read".data low ||
  hasSubstr "complete".data low || hasSubstr "rewrite".data low ||
  hasSubstr "put".data low

/-- The reading-passage start patterns (two hardcoded titles, anchored,
case-insensitive). -/
def isPassageStart (cs : List Char) : Bool :=
  (stripPrefixCI "A surprising gift".data cs).isSome ||
  (stripPrefixCI "Stewart the Dragon".data cs).isSome

/-- The question-line test pattern: anchored Câu, whitespace-star, a digit. -/
def qTest (cs : List Char) : Bool :=
  match stripPrefixCI "Câu".data cs with
  | none => false
  | some r =>
    match r.dropWhile isJsWs with
    | c :: _ => c.isDigit
    | [] => false

/-- Characters of the class dot-or-whitespace-or-colon in the full question
pattern. -/
def isQSep (c : Char) : Bool := c = '.' || isJsWs c || c = ':'

/-- The full question-start pattern: anchored Câu, whitespace-star, captured
digits, a nonempty separator-class run, a captured dot-star up to the end
anchor.  The end anchor makes the match fail when a line terminator remains
after the maximal separator run. -/
def qMatch (cs : List Char) : Option (Nat × List Char) :=
  match stripPrefixCI "Câu".data cs with
  | none => none
  | some r =>
    let r2 := r.dropWhile isJsWs
    let ds := r2.takeWhile Char.isDigit
    if ds.isEmpty then none
    else
      let r3 := r2.drop ds.length
      let cls := r3.takeWhile isQSep
      if cls.isEmpty then none
      else
        let rest := r3.drop cls.length
        if rest.all (fun c => !isLineTerm c) then some (parseNatDigits ds, rest)
        else none

/-- The option-line test pattern: anchored whitespace-star, a letter A to D
(case-insensitive), a dot or closing parenthesis. -/
def optLineTest (cs : List Char) : Bool :=
  match cs.dropWhile isJsWs with
  | c :: d :: _ =>
    (jsLower c = 'a' || jsLower c = 'b' || jsLower c = 'c' || jsLower c = 'd') &&
    (d = '.' || d = ')')
  | _ => false

/-- Backtracking loop for the answer-line tail: try the given
whitespace-star length first, then shorter ones; at an offset whose head is
matchable by the dot, the greedy dot-plus group takes the maximal run. -/
def ansTailGo (r : List Char) : Nat → Option (List Char)
  | 0 =>
    match r.head? with
    | some c => if !isLineTerm c then some (r.takeWhile (fun d => !isLineTerm d)) else none
    | none => none
  | j + 1 =>
    match (r.drop (j + 1)).head? with
    | some c =>
      if !isLineTerm c then some ((r.drop (j + 1)).takeWhile (fun d => !isLineTerm d))
      else ansTailGo r j
    | none => ansTailGo r j

/-- Attempt of the answer-line pattern at the current position: literal Đáp
án with a colon (case-insensitive), whitespace-star, then a nonempty captured
dot-plus group, the star backtracking from its maximal run. -/
def ansMatchAt (cs : List Char) : Option (List Char) :=
  match stripPrefixCI "Đáp án:".data cs with
  | none => none
  | some r => ansTailGo r ((r.takeWhile isJsWs).length)

/-- Unanchored leftmost search for the answer-line pattern. -/
def ansMatchFrom : List Char → Option (List Char)
  | [] => ansMatchAt []
  | c :: rest =>
    match ansMatchAt (c :: rest) with
    | some r => some r
    | none => ansMatchFrom rest

/-! ## Option marker scan (the global option regular expression) -/

/-- One match of the option-marker pattern: a letter A to D, a dot or closing
parenthesis, then a greedy whitespace run.  matchEnd mirrors the source (the
match end minus one when the matched text ends in a space); it is unused
downstream but kept for fidelity. -/
structure OptMatch where
  letter : Char
  matchStart : Nat
  matchEnd : Nat
  contentStart : Nat
deriving DecidableEq

/-- Global scan for all non-overlapping option markers, resuming after each
match, with fuel bounded by the list length (each step consumes at least one
character). -/
def findOptionMatchesAux : Nat → List Char → Nat → List OptMatch
  | 0, _, _ => []
  | _ + 1, [], _ => []
  | fuel + 1, c :: rest, i =>
    if 'A' ≤ c && c ≤ 'D' then
      match rest with
      | d :: rest2 =>
        if d = '.' || d = ')' then
          let ws := rest2.takeWhile isJsWs
          let len := 2 + ws.length
          let endsSpace := ws.getLast? = some ' '
          { letter := c, matchStart := i,
            matchEnd := i + len - (if endsSpace then 1 else 0),
            contentStart := i + len } ::
            findOptionMatchesAux fuel (rest2.drop ws.length) (i + len)
        else findOptionMatchesAux fuel rest (i + 1)
      | [] => []
    else findOptionMatchesAux fuel rest (i + 1)

/-- All option-marker matches of a line, leftmost first. -/
def findOptionMatches (cs : List Char) : List OptMatch :=
  findOptionMatchesAux cs.length cs 0

/-- Normalization applied to an option content slice: trim, collapse tab
runs, collapse whitespace runs, trim. -/
def normalizeOptionText (cs : List Char) : String :=
  ⟨trimChars (collapseWs (collapseTabs (trimChars cs)))⟩

/-! ## Formatted text builder -/

/-- Escaping performed by assigning textContent and reading innerHTML. -/
def escapeHtmlChar (c : Char) : List Char :=
  if c = '&' then "&amp;".data
  else if c = '<' then "&lt;".data
  else if c = '>' then "&gt;".data
  else if c.toNat = 0xA0 then "&nbsp;".data
  else [c]

/-- Escaping of a whole character list. -/
def escapeHtmlChars (cs : List Char) : List Char :=
  cs.foldr (fun c acc => escapeHtmlChar c ++ acc) []

/-- The underline wrapper opening tag. -/
def spanOpen : List Char := "<span class=\"underlined-part\">".data

/-- The underline wrapper closing tag. -/
def spanClose : List Char := "</span>".data

/-- The bold wrapper opening tag. -/
def strongOpen : List Char := "<strong>".data

/-- The bold wrapper closing tag. -/
def strongClose : List Char := "</strong>".data

/-- The portion of a run overlapping the half-open range, as substr computes
it. -/
def runPortion (r : ParagraphRun) (startPos endPos : Nat) : List Char :=
  (r.text.data.drop (max r.start startPos - r.start)).take
    (min r.«end» endPos - max r.start startPos)

/-- Formatting wrapper applied to an escaped portion according to the run
flags. -/
def wrapFormatted (r : ParagraphRun) (portion : List Char) : List Char :=
  let f := escapeHtmlChars portion
  if r.hasUnderline && r.hasBold then spanOpen ++ strongOpen ++ f ++ strongClose ++ spanClose
  else if r.hasUnderline then spanOpen ++ f ++ spanClose
  else if r.hasBold then strongOpen ++ f ++ strongClose
  else f

/-- One loop iteration of buildFormattedText: runs not overlapping the range
or with an empty portion contribute nothing. -/
def formattedPiece (startPos endPos : Nat) (r : ParagraphRun) : List Char :=
  if r.«end» ≤ startPos || r.start ≥ endPos then []
  else
    let portion := runPortion r startPos endPos
    if portion.isEmpty then [] else wrapFormatted r portion

/-- The concatenation built by the loop of buildFormattedText, before the
whitespace cleanup. -/
def buildFormattedTextCore (runs : List ParagraphRun) (startPos endPos : Nat) : List Char :=
  (runs.map (formattedPiece startPos endPos)).flatten

/-- The final whitespace cleanup: collapse whitespace runs, then trim. -/
def cleanupWs (cs : List Char) : List Char := trimChars (collapseWs cs)

/-- buildFormattedText of the source. -/
def buildFormattedText (runs : List ParagraphRun) (startPos endPos : Nat) : String :=
  ⟨cleanupWs (buildFormattedTextCore runs startPos endPos)⟩

/-- The plain (unescaped, unwrapped) portion contributed by one run. -/
def plainPiece (startPos endPos : Nat) (r : ParagraphRun) : List Char :=
  if r.«end» ≤ startPos || r.start ≥ endPos then []
  else
    let portion := runPortion r startPos endPos
    if portion.isEmpty then [] else portion

/-- The plain text content of an offset range: the portions of the runs
overlapping the range, concatenated in run order. -/
def plainTextOf (runs : List ParagraphRun) (startPos endPos : Nat) : List Char :=
  (runs.map (plainPiece startPos endPos)).flatten

/-- Removal of markup tags: drops every maximal segment between an opening
and a closing angle bracket. -/
def stripTagsAux : Bool → List Char → List Char
  | _, [] => []
  | inTag, c :: rest =>
    if c = '<' then stripTagsAux true rest
    else if c = '>' then stripTagsAux false rest
    else if inTag then stripTagsAux true rest
    else c :: stripTagsAux false rest

/-- Tag removal on a string. -/
def stripTags (s : String) : String := ⟨stripTagsAux false s.data⟩

/-! ## Option extraction (extractOptionsWithUnderline) -/

/-- The next-marker boundary for the option currently being processed: the
start of the following match, or the line length for the last one. -/
def nextStartOf (lineLen : Nat) : List OptMatch → Nat
  | [] => lineLen
  | m2 :: _ => m2.matchStart

/-- The normalized option content for a match given its boundary. -/
def optionTextOf (cs : List Char) (m : OptMatch) (nextStart : Nat) : String :=
  normalizeOptionText ((cs.drop m.contentStart).take (nextStart - m.contentStart))

/-- Highlight test: some run overlapping the marker-to-boundary span carries
the highlight flag. -/
def optionIsCorrect (runs : List ParagraphRun) (m : OptMatch) (nextStart : Nat) : Bool :=
  runs.any (fun r =>
    max r.start m.matchStart < min r.«end» nextStart && r.hasHighlight)

/-- The loop over detected markers: a marker whose letter already exists on
the question or whose normalized content is empty is skipped; otherwise an
option is appended. -/
def addOptionsLoop (cs : List Char) (runs : List ParagraphRun) (lineLen : Nat) :
    List OptMatch → Question → Question
  | [], q => q
  | m :: rest, q =>
    if q.options.any (fun o => o.letter = m.letter) ||
        optionTextOf cs m (nextStartOf lineLen rest) = "" then
      addOptionsLoop cs runs lineLen rest q
    else
      addOptionsLoop cs runs lineLen rest
        { q with options := q.options ++
            [{ letter := m.letter, text := optionTextOf cs m (nextStartOf lineLen rest),
               textWithUnderline :=
                 buildFormattedText runs m.contentStart (nextStartOf lineLen rest),
               isCorrect := optionIsCorrect runs m (nextStartOf lineLen rest) }] }

/-- Sort key for options: the letter code point (localeCompare on single
letters A to D orders them by code point). -/
def optKey (o : QuestionOption) : Nat := o.letter.toNat

/-- extractOptionsWithUnderline of the source: scan markers, add new options,
then retype and re-sort; a line without markers leaves the question
untouched. -/
def extractOptionsWithUnderline (pData : ParagraphData) (question : Question) : Question :=
  let cs := pData.text.data
  let ms := findOptionMatches cs
  if ms.isEmpty then question
  else
    let q1 := addOptionsLoop cs pData.runs cs.length ms question
    let q2 :=
      if q1.options.length ≥ 2 && !(q1.type = QType.writing) then
        { q1 with type := QType.multiple_choice }
      else q1
    { q2 with options := sortK optKey q2.options }

/-! ## The line classifier state machine -/

/-- The mutable context of parseQuestionsFromParagraphs. -/
structure ParseState where
  currentSection : Option SectionInfo
  currentPart : Option String
  currentQuestion : Option Question
  readingPassage : String
  inReading : Bool
  questions : List Question
deriving DecidableEq

/-- Type resolution applied when a question is finalized: an unknown type
becomes multiple choice with at least two options, writing otherwise. -/
def resolveType (q : Question) : Question :=
  if q.type = QType.unknown then
    { q with type := if q.options.length ≥ 2 then QType.multiple_choice else QType.writing }
  else q

/-- The tail of one classifier iteration, after the section, part and
reading-passage rules: question start, option line, answer line,
continuation, discard.  The state passed in already has the inReading reset
applied. -/
def stepRest (st : ParseState) (pData : ParagraphData) (line : String) (cs : List Char) :
    ParseState :=
  match qMatch cs with
  | some (n, rest) =>
    let finalized :=
      match st.currentQuestion with
      | some cq => st.questions ++ [resolveType cq]
      | none => st.questions
    let newQ : Question :=
      { number := n, «section» := st.currentSection, part := st.currentPart,
        text := jsTrim ⟨rest⟩, options := [], correctAnswer := none,
        type := QType.unknown, passage := st.readingPassage }
    { st with questions := finalized,
              currentQuestion := some (extractOptionsWithUnderline pData newQ) }
  | none =>
    if st.currentQuestion.isSome && optLineTest cs then
      { st with currentQuestion :=
          st.currentQuestion.map (extractOptionsWithUnderline pData) }
    else
      match ansMatchFrom cs, st.currentQuestion with
      | some cap, some cq =>
        let ansText := jsTrim ⟨cap⟩
        let cq1 := if ansText ≠ "" then { cq with correctAnswer := some ansText } else cq
        { st with currentQuestion := some { cq1 with type := QType.writing } }
      | _, _ =>
        match st.currentQuestion with
        | some cq =>
          let cq1 :=
            { cq with text := if cq.text = "" then line else cq.text ++ "\n" ++ line }
          { st with currentQuestion := some cq1 }
        | none => st

/-- One iteration of the paragraph loop of parseQuestionsFromParagraphs,
evaluating the transition rules in source order. -/
def step (st : ParseState) (pData : ParagraphData) : ParseState :=
  let line := jsTrim pData.text
  if line = "" then st
  else
    let cs := line.data
    match matchSectionFrom cs with
    | some (letterCh, rawName, rawPts) =>
      let si : SectionInfo :=
        { letter := ⟨[letterCh]⟩, name := jsTrim ⟨rawName⟩, points := ⟨rawPts⟩ }
      { st with currentSection := some si }
    | none =>
      if partMatches cs && partKeyword cs then
        { st with currentPart := some line }
      else if isPassageStart cs then
        { st with inReading := true, readingPassage := line ++ "\n" }
      else if st.inReading && !qTest cs then
        { st with readingPassage := st.readingPassage ++ line ++ "\n" }
      else
        stepRest (if qTest cs then { st with inReading := false } else st) pData line cs

/-- The initial classifier context. -/
def initState (initialQs : List Question) : ParseState :=
  { currentSection := none, currentPart := none, currentQuestion := none,
    readingPassage := "", inReading := false, questions := initialQs }

/-- The paragraph loop followed by the final flush of the in-progress
question. -/
def collectedQuestions (paragraphs : List ParagraphData) (initialQs : List Question) :
    List Question :=
  let st := paragraphs.foldl step (initState initialQs)
  match st.currentQuestion with
  | some cq => st.questions ++ [resolveType cq]
  | none => st.questions

/-- The multiple-choice answer-key pass applied to one question: when an
option is marked correct (from highlighting), the correct answer becomes its
letter. -/
def applyCorrect (q : Question) : Question :=
  if q.type = QType.multiple_choice then
    match q.options.find? (fun o => o.isCorrect) with
    | some o => { q with correctAnswer := some ⟨[o.letter]⟩ }
    | none => q
  else q

/-- The answers-object write performed by the answer-key pass for one
question. -/
def answersStep (m : List (Nat × String)) (q : Question) : List (Nat × String) :=
  if q.type = QType.multiple_choice then
    match q.options.find? (fun o => o.isCorrect) with
    | some o => setAnswer m q.number ⟨[o.letter]⟩
    | none => m
  else m

/-- The answers-object writes performed by the answer-key pass, folded over
the question list in order. -/
def answersOf (init : List (Nat × String)) (qs : List Question) : List (Nat × String) :=
  qs.foldl answersStep init

/-- Whether the answer-key pass writes an entry for a question: a multiple
choice question having an inferred-correct option. -/
def mcqWithCorrect (q : Question) : Bool :=
  if q.type = QType.multiple_choice then (q.options.find? (fun o => o.isCorrect)).isSome
  else false

/-- Sort key for questions. -/
def qKey (q : Question) : Nat := q.number

/-! ## Section grouper -/

/-- The grouping key of a question. -/
def sectionKey (q : Question) : String :=
  match q.«section» with
  | some s => s.letter ++ "-" ++ s.name
  | none => "default"

/-- Insertion into the key-to-bucket map, preserving first-seen key order and
appending within a bucket. -/
def bucketsAdd (bs : List (String × List Question)) (k : String) (q : Question) :
    List (String × List Question) :=
  match bs with
  | [] => [(k, [q])]
  | (k0, qs) :: rest =>
    if k0 = k then (k0, qs ++ [q]) :: rest else (k0, qs) :: bucketsAdd rest k q

/-- The buckets of a question list in first-seen key order. -/
def sectionBuckets (qs : List Question) : List (String × List Question) :=
  qs.foldl (fun bs q => bucketsAdd bs (sectionKey q) q) []

/-- The section record built from one bucket (always nonempty in practice;
the empty case is unreachable filler). -/
def buildSection (qs : List Question) : ExamSection :=
  match qs with
  | [] => { name := "Tất cả câu hỏi", description := "", points := "",
            questions := [], readingPassage := "" }
  | firstQ :: _ =>
    { name :=
        match firstQ.«section» with
        | some s => "SECTION " ++ s.letter ++ ". " ++ s.name
        | none => "Tất cả câu hỏi",
      description := firstQ.part.getD "",
      points := match firstQ.«section» with | some s => s.points | none => "",
      questions := qs,
      readingPassage := firstQ.passage }

/-- groupQuestionsIntoSections of the source. -/
def groupQuestionsIntoSections (examData : ExamData) : ExamData :=
  { examData with sections :=
      examData.sections ++ (sectionBuckets examData.questions).map (fun b => buildSection b.2) }

/-- parseQuestionsFromParagraphs of the source: run the classifier, apply the
answer-key pass, sort by number, group into sections. -/
def parseQuestionsFromParagraphs (paragraphs : List ParagraphData) (examData : ExamData) :
    ExamData :=
  let collected := collectedQuestions paragraphs examData.questions
  groupQuestionsIntoSections
    { examData with
      questions := sortK qKey (collected.map applyCorrect),
      answers := answersOf examData.answers collected }

/-! ## Run extraction from the document markup -/

/-- The run-properties element: each field records presence of the
corresponding child element together with its optional value attribute (the
shd field holds the fill attribute). -/
structure RPr where
  highlight : Option (Option String)
  shd : Option (Option String)
  u : Option (Option String)
  b : Option (Option String)
deriving DecidableEq

/-- A run element: the text contents of its text children and its optional
properties element. -/
structure XmlRun where
  textNodes : List String
  rPr : Option RPr
deriving DecidableEq

/-- A paragraph element. -/
structure XmlParagraph where
  runs : List XmlRun
deriving DecidableEq

/-- The document: its paragraph elements in order. -/
structure XmlDoc where
  paragraphs : List XmlParagraph
deriving DecidableEq

/-- JavaScript string truthiness (null or empty is falsy) for an optional
attribute value. -/
def attrFalsy : Option String → Bool
  | none => true
  | some v => v = ""

/-- The highlight flag: an explicit highlight value other than none, or a
shading fill that is truthy, not auto, and not white. -/
def highlightFlag (rPr : RPr) : Bool :=
  (match rPr.highlight with
   | some v => !(v = some "none")
   | none => false) ||
  (match rPr.shd with
   | some fill =>
     (match fill with
      | some f => f ≠ "" && f ≠ "auto" && ⟨f.data.map jsUpper⟩ ≠ "FFFFFF"
      | none => false)
   | none => false)

/-- The underline flag: an underline element whose value is falsy or not the
string none lower-cased. -/
def underlineFlag (rPr : RPr) : Bool :=
  match rPr.u with
  | some v => attrFalsy v || !(⟨(v.getD "").data.map jsLower⟩ = ("none" : String))
  | none => false

/-- The bold flag: a bold element whose value is falsy or differs from the
string zero. -/
def boldFlag (rPr : RPr) : Bool :=
  match rPr.b with
  | some v => attrFalsy v || !(v = some "0")
  | none => false

/-- The three flags of a run, false when there is no properties element. -/
def runFlags (rPr : Option RPr) : Bool × Bool × Bool :=
  match rPr with
  | none => (false, false, false)
  | some p => (highlightFlag p, underlineFlag p, boldFlag p)

/-- The concatenated text of a run element. -/
def xmlRunText (r : XmlRun) : String := r.textNodes.foldl (· ++ ·) ""

/-- The extracted runs of one paragraph, offsets accumulated over nonempty
texts only. -/
def extractRuns : List XmlRun → Nat → List ParagraphRun
  | [], _ => []
  | r :: rest, pos =>
    let t := xmlRunText r
    if t = "" then extractRuns rest pos
    else
      let fl := runFlags r.rPr
      { text := t, hasHighlight := fl.1, hasUnderline := fl.2.1, hasBold := fl.2.2,
        start := pos, «end» := pos + t.data.length } :: extractRuns rest (pos + t.data.length)

/-- The extracted paragraph data of a document, discarding paragraphs whose
trimmed text is empty. -/
def extractParagraphs (doc : XmlDoc) : List ParagraphData :=
  doc.paragraphs.filterMap (fun p =>
    let rs := extractRuns p.runs 0
    let text : String := rs.foldl (fun acc r => acc ++ r.text) ""
    if jsTrim text = "" then none else some { text := text, runs := rs })

/-- The fresh result record created at the top of parseDocumentXML. -/
def emptyExamData : ExamData :=
  { title := "Đề thi Tiếng Anh", timeLimit := 60, sections := [],
    questions := [], answers := [] }

/-- parseDocumentXML of the source. -/
def parseDocumentXML (doc : XmlDoc) : ExamData :=
  parseQuestionsFromParagraphs (extractParagraphs doc) emptyExamData

/-- parseWordToExam after the archive stage, parameterized by the markup
parser of the host (DOMParser.parseFromString, a total function that yields
an error document rather than throwing on malformed input).  The input is
the optional document entry text; the only rejection in the source is the
missing entry. -/
def parseWordToExam (domParse : String → XmlDoc) :
    Option String → Except String ExamData
  | none => Except.error "Không tìm thấy document.xml trong file Word"
  | some xml => Except.ok (parseDocumentXML (domParse xml))

/-! ## Concrete inputs used to settle the claims -/

/-- A paragraph consisting of a single plain run covering its whole text. -/
def plainPara (s : String) : ParagraphData :=
  { text := s,
    runs := [{ text := s, hasHighlight := false, hasUnderline := false,
               hasBold := false, start := 0, «end» := s.data.length }] }

/-- The scenario paragraphs of the first claim: the question line is split in
two runs, the second one (covering the marker and content of option B, the
word dog) highlighted. -/
def scenarioC1 : List ParagraphData :=
  [plainPara "SECTION A. GRAMMAR: 2.0 POINTS",
   { text := "Câu 1. Choose the best answer. A. cat B. dog",
     runs := [{ text := "Câu 1. Choose the best answer. A. cat ",
                hasHighlight := false, hasUnderline := false, hasBold := false,
                start := 0, «end» := 38 },
              { text := "B. dog", hasHighlight := true, hasUnderline := false,
                hasBold := false, start := 38, «end» := 44 }] },
   plainPara "Đáp án: ..."]

/-- A free-response question with an explicit answer line. -/
def scenarioC2 : List ParagraphData :=
  [plainPara "Câu 1. Translate this.", plainPara "Đáp án: xyz"]

/-- A question parsed before the section header, producing two
non-adjacent questions with the same section key in the sorted list. -/
def scenarioC5 : List ParagraphData :=
  [plainPara "Câu 2. x", plainPara "SECTION A. GRAMMAR: 2.0 POINTS",
   plainPara "Câu 1. y", plainPara "Câu 3. z"]

/-- Whether xs occurs as a contiguous slice of ys. -/
def isBlockOf (xs ys : List Nat) : Bool :=
  (List.range (ys.length + 1)).any (fun i => (ys.drop i).take xs.length = xs)

/-- The markup parser of the host on unparsable input: parseFromString never
throws, it yields a parser-error document, which contains no document
paragraph elements; modelled as the document with no paragraphs. -/
def errorDomParse : String → XmlDoc := fun _ => { paragraphs := [] }

/-- A properties record whose bold element carries the value one. -/
def oneBoldRPr : RPr :=
  { highlight := none, shd := none, u := none, b := some (some "1") }

/-- A run whose bold property carries the value false. -/
def boldFalseRun : XmlRun :=
  { textNodes := ["x"],
    rPr := some { highlight := none, shd := none, u := none, b := some (some "false") } }

/-- First-seen order of section keys over a question list. -/
def firstSeenKeys (qs : List Question) : List String :=
  qs.foldl (fun ks q => if sectionKey q ∈ ks then ks else ks ++ [sectionKey q]) []

/-- A multiple-choice question line with the span of option B highlighted
and no explicit answer line. -/
def scenarioMCQ : List ParagraphData :=
  [{ text := "Câu 1. Pick one. A. cat B. dog",
     runs := [{ text := "Câu 1. Pick one. A. cat ",
                hasHighlight := false, hasUnderline := false, hasBold := false,
                start := 0, «end» := 24 },
              { text := "B. dog", hasHighlight := true, hasUnderline := false,
                hasBold := false, start := 24, «end» := 30 }] }]

/-- Every marker of the list is already skippable against the question:
its letter exists on the question or its content at its position is empty. -/
def coversMatches (cs : List Char) (lineLen : Nat) : List OptMatch → Question → Bool
  | [], _ => true
  | m :: rest, q =>
    (q.options.any (fun o => o.letter = m.letter) ||
      optionTextOf cs m (nextStartOf lineLen rest) = "") &&
    coversMatches cs lineLen rest q

/-- A freshly created question record with no options. -/
def freshQuestion : Question :=
  { number := 7, «section» := none, part := none, text := "", options := [],
    correctAnswer := none, type := QType.unknown, passage := "" }

/-- A classifier context holding an accumulated reading passage. -/
def witnessState : ParseState :=
  { currentSection := none, currentPart := none, currentQuestion := none,
    readingPassage := "A surprising gift\nIt came in a box.\n", inReading := false,
    questions := [] }

/-- Whitespace characters that survive the whitespace-run collapse
unchanged: a whitespace character must be a plain space. -/
def wsChar (c : Char) : Bool := !isJsWs c || c = ' '

/-- Characters for which the formatted-text builder is the identity modulo
tags: not an escaping or markup character and not whitespace. -/
def goodChar (c : Char) : Bool :=
  !(c = '&') && !(c = '<') && !(c = '>') && !(c.toNat = 0xA0) && !isJsWs c

/-- No two adjacent whitespace characters. -/
def noDoubleWs : List Char → Bool
  | [] => true
  | [_] => true
  | a :: b :: rest => !(isJsWs a && isJsWs b) && noDoubleWs (b :: rest)

/-- A character list left unchanged by the whitespace cleanup: every
whitespace character is a plain space, no two adjacent whitespace
characters, and non-whitespace edges. -/
def ChunkOk (l : List Char) : Prop :=
  l.all wsChar = true ∧ noDoubleWs l = true ∧
  (∀ c, l.head? = some c → isJsWs c = false) ∧
  (∀ c, l.getLast? = some c → isJsWs c = false)

/-- A single plain run containing a double space. -/
def cexC8Runs : List ParagraphRun :=
  [{ text := "a  b", hasHighlight := false, hasUnderline := false, hasBold := false,
     start := 0, «end» := 4 }]

/-- A plain run followed by a bold-underlined run, whitespace-free. -/
def witC8Runs : List ParagraphRun :=
  [{ text := "cat", hasHighlight := false, hasUnderline := false, hasBold := false,
     start := 0, «end» := 3 },
   { text := "dog", hasHighlight := false, hasUnderline := true, hasBold := true,
     start := 3, «end» := 6 }]

/-! ## Lemmas about the stable sort -/

theorem insertK_perm (key : α → Nat) (x : α) (l : List α) :
    (insertK key x l).Perm (x :: l) := by
  induction l with
  | nil => simp [insertK]
  | cons y ys ih =>
    simp only [insertK]
    split
    · exact List.Perm.refl _
    · exact (ih.cons y).trans (List.Perm.swap x y ys)

theorem sortK_perm (key : α → Nat) (l : List α) : (sortK key l).Perm l := by
  induction l with
  | nil => simp [sortK]
  | cons a l ih =>
    have h1 : sortK key (a :: l) = insertK key a (sortK key l) := rfl
    rw [h1]
    exact (insertK_perm key a (sortK key l)).trans (ih.cons a)

theorem mem_insertK (key : α → Nat) (x z : α) (l : List α) :
    z ∈ insertK key x l ↔ z = x ∨ z ∈ l := by
  have := (insertK_perm key x l).mem_iff (a := z)
  simpa using this

theorem pairwise_insertK (key : α → Nat) (x : α) (l : List α)
    (h : l.Pairwise (fun a b => key a ≤ key b)) :
    (insertK key x l).Pairwise (fun a b => key a ≤ key b) := by
  induction l with
  | nil => simp [insertK]
  | cons y ys ih =>
    rcases List.pairwise_cons.mp h with ⟨hy, hys⟩
    simp only [insertK]
    split
    case isTrue hxy =>
      refine List.pairwise_cons.mpr ⟨?_, h⟩
      intro z hz
      rcases List.mem_cons.mp hz with rfl | hz
      · exact hxy
      · exact Nat.le_trans hxy (hy z hz)
    case isFalse hxy =>
      have hky : key y ≤ key x := Nat.le_of_not_le hxy
      refine List.pairwise_cons.mpr ⟨?_, ih hys⟩
      intro z hz
      rcases (mem_insertK key x z ys).mp hz with rfl | hz
      · exact hky
      · exact hy z hz

theorem sortK_pairwise (key : α → Nat) (l : List α) :
    (sortK key l).Pairwise (fun a b => key a ≤ key b) := by
  induction l with
  | nil => simp [sortK]
  | cons a l ih => exact pairwise_insertK key a (sortK key l) ih

theorem filter_insertK (key : α → Nat) (n : Nat) (x : α) (l : List α) :
    (insertK key x l).filter (fun a => key a == n) =
      if key x = n then x :: l.filter (fun a => key a == n)
      else l.filter (fun a => key a == n) := by
  induction l with
  | nil =>
    by_cases hx : key x = n <;> simp [insertK, List.filter_cons, hx]
  | cons y ys ih =>
    simp only [insertK]
    split
    case isTrue hxy =>
      by_cases hx : key x = n <;> simp [List.filter_cons, hx]
    case isFalse hxy =>
      have hlt : key y < key x := Nat.lt_of_not_le hxy
      by_cases hx : key x = n
      · have hy : ¬ key y = n := by omega
        simp [List.filter_cons, hy, ih, hx]
      · by_cases hy : key y = n <;> simp [List.filter_cons, hy, ih, hx]

theorem sortK_filter (key : α → Nat) (n : Nat) (l : List α) :
    (sortK key l).filter (fun a => key a == n) = l.filter (fun a => key a == n) := by
  induction l with
  | nil => simp [sortK]
  | cons a l ih =>
    have h1 : sortK key (a :: l) = insertK key a (sortK key l) := rfl
    rw [h1, filter_insertK]
    by_cases hx : key a = n <;> simp [List.filter_cons, hx, ih]

theorem insertK_of_le (key : α → Nat) (x : α) (l : List α)
    (h : ∀ z ∈ l.head?, key x ≤ key z) : insertK key x l = x :: l := by
  cases l with
  | nil => rfl
  | cons y ys => simp [insertK, h y rfl]

theorem sortK_sorted_id (key : α → Nat) (l : List α)
    (h : l.Pairwise (fun a b => key a ≤ key b)) : sortK key l = l := by
  induction l with
  | nil => rfl
  | cons a l ih =>
    rcases List.pairwise_cons.mp h with ⟨ha, hl⟩
    have h1 : sortK key (a :: l) = insertK key a (sortK key l) := rfl
    rw [h1, ih hl]
    refine insertK_of_le key a l ?_
    intro z hz
    exact ha z (List.mem_of_mem_head? hz)

/-! ## Projections of the parse result -/

theorem parse_questions_eq (ps : List ParagraphData) (e : ExamData) :
    (parseQuestionsFromParagraphs ps e).questions =
      sortK qKey ((collectedQuestions ps e.questions).map applyCorrect) := rfl

theorem parse_answers_eq (ps : List ParagraphData) (e : ExamData) :
    (parseQuestionsFromParagraphs ps e).answers =
      answersOf e.answers (collectedQuestions ps e.questions) := rfl

theorem parse_title_eq (ps : List ParagraphData) (e : ExamData) :
    (parseQuestionsFromParagraphs ps e).title = e.title := rfl

theorem parse_timeLimit_eq (ps : List ParagraphData) (e : ExamData) :
    (parseQuestionsFromParagraphs ps e).timeLimit = e.timeLimit := rfl

/-! ## Claim C9 -/

/-- C9: for every input document, the ExamData returned by the parse has the
constant title and the constant time limit of sixty; neither is derived from
the document content. -/
theorem C9_constant_title_timeLimit : ∀ doc : XmlDoc,
    (parseDocumentXML doc).title = "Đề thi Tiếng Anh" ∧
    (parseDocumentXML doc).timeLimit = 60 := by
  intro doc
  exact ⟨parse_title_eq _ _, parse_timeLimit_eq _ _⟩

/-! ## Claim C3 -/

/-- C3 (counterexample): on unparsable markup the parse does not fail; with
the host markup parser yielding its error document for a malformed input,
the result is a successfully returned empty ExamData, contradicting the
claimed MalformedDocumentError rejection. -/
theorem C3_counterexample :
    parseWordToExam errorDomParse (some "<<<not xml") = Except.ok emptyExamData ∧
    (emptyExamData.questions = [] ∧ emptyExamData.sections = []) := by
  constructor
  · rfl
  · exact ⟨rfl, rfl⟩

/-- C3 (amended): the parse never rejects present body text, whatever its
content: the markup-parsing step is total (an error document is walked like
any other, typically yielding an empty result), and the only rejection in
the source is the missing document entry. -/
theorem C3_amended : ∀ (domParse : String → XmlDoc) (s : String),
    parseWordToExam domParse (some s) = Except.ok (parseDocumentXML (domParse s)) ∧
    parseWordToExam domParse none =
      Except.error "Không tìm thấy document.xml trong file Word" := by
  intro domParse s
  exact ⟨rfl, rfl⟩

/-! ## Claim C4 -/

/-- C4 (counterexample): a run whose bold property carries the value false is
extracted with the bold flag set, contradicting the claim that the false
value is the not-bold sentinel (the source compares against the string
zero). -/
theorem C4_counterexample :
    (extractRuns [boldFalseRun] 0).map (fun r => r.hasBold) = [true] := by decide

/-- C4 (amended): the extracted bold flag is set exactly when a bold
property is present and its value attribute is absent, empty, or different
from the string zero (the sentinel is zero, not the word false); and run
extraction assigns exactly this flag to every extracted run. -/
theorem C4_amended :
    (∀ rpr : Option RPr, (runFlags rpr).2.2 = true ↔
      ∃ p, rpr = some p ∧ p.b ≠ none ∧ p.b ≠ some (some "0")) ∧
    (∀ (xr : XmlRun) (pos : Nat),
      (extractRuns [xr] pos).map (fun r => r.hasBold) =
        if xmlRunText xr = "" then [] else [(runFlags xr.rPr).2.2]) := by
  constructor
  · intro rpr
    cases rpr with
    | none => simp [runFlags]
    | some p =>
      cases hb : p.b with
      | none => simp [runFlags, boldFlag, hb]
      | some v =>
        cases v with
        | none => simp [runFlags, boldFlag, hb, attrFalsy]
        | some s =>
          by_cases hs : s = "0"
          · subst hs
            simp [runFlags, boldFlag, hb, attrFalsy]
          · simp [runFlags, boldFlag, hb, attrFalsy, hs]
  · intro xr pos
    by_cases ht : xmlRunText xr = "" <;> simp [extractRuns, ht]

/-- C4 witness: the amended biconditional applied at a concrete properties
record with bold value one. -/
theorem C4_witness : (runFlags (some oneBoldRPr)).2.2 = true :=
  (C4_amended.1 _).mpr ⟨_, rfl, by decide, by decide⟩

/-! ## Claim C1 -/

/-- C1 (counterexample): on the scenario paragraphs the parsed question ends
typed writing with correct answer the explicit answer-line text, not
multiple choice with correct answer B: the answer line, present in the
scenario, overwrites the type after the options were extracted, and the
highlight pass skips non-multiple-choice questions. -/
theorem C1_counterexample :
    ((parseQuestionsFromParagraphs scenarioC1 emptyExamData).questions.map
      (fun q => (q.type, q.correctAnswer)) = [(QType.writing, some "...")]) ∧
    QType.writing ≠ QType.multiple_choice := by decide

/-- C1 (amended): the scenario parse produces exactly one Question numbered
one with two options, letter A with text cat and letter B with text dog, the
B option marked inferred-correct from the highlight; but because of the
answer line the Question is typed writing with recorded correct answer the
answer-line text, and the answers mapping is empty. -/
theorem C1_amended :
    ((parseQuestionsFromParagraphs scenarioC1 emptyExamData).questions.map
      (fun q => (q.number, q.type, q.correctAnswer)) =
        [(1, QType.writing, some "...")]) ∧
    ((parseQuestionsFromParagraphs scenarioC1 emptyExamData).questions.map
      (fun q => q.options.map (fun o => (o.letter, o.text, o.isCorrect))) =
        [[('A', "cat", false), ('B', "dog", true)]]) ∧
    (parseQuestionsFromParagraphs scenarioC1 emptyExamData).answers = [] := by decide

/-! ## Claim C2 -/

theorem lookup_setAnswer (m : List (Nat × String)) (k n : Nat) (v : String) :
    lookupAnswer (setAnswer m k v) n = if k = n then some v else lookupAnswer m n := by
  induction m with
  | nil => simp [setAnswer, lookupAnswer]
  | cons e rest ih =>
    obtain ⟨k0, w⟩ := e
    by_cases hk : k0 = k
    · subst hk
      by_cases hn : k0 = n <;> simp [setAnswer, lookupAnswer, hn]
    · by_cases hn : k0 = n
      · subst hn
        have : ¬ k = k0 := fun h => hk h.symm
        simp [setAnswer, lookupAnswer, hk, this]
      · simp [setAnswer, lookupAnswer, hk, hn, ih]

theorem lookup_answersStep (m : List (Nat × String)) (q : Question) (n : Nat) :
    (lookupAnswer (answersStep m q) n).isSome = true ↔
      (mcqWithCorrect q = true ∧ q.number = n) ∨ (lookupAnswer m n).isSome = true := by
  unfold answersStep mcqWithCorrect
  by_cases ht : q.type = QType.multiple_choice
  · simp only [ht, if_true]
    cases hf : q.options.find? (fun o => o.isCorrect) with
    | none => simp [hf]
    | some o =>
      rw [lookup_setAnswer]
      by_cases hn : q.number = n <;> simp [hn, hf]
  · simp [ht]

theorem lookup_answersOf (init : List (Nat × String)) (qs : List Question) (n : Nat) :
    (lookupAnswer (answersOf init qs) n).isSome = true ↔
      (lookupAnswer init n).isSome = true ∨
        ∃ q ∈ qs, mcqWithCorrect q = true ∧ q.number = n := by
  induction qs generalizing init with
  | nil => simp [answersOf]
  | cons q qs ih =>
    have h1 : answersOf init (q :: qs) = answersOf (answersStep init q) qs := rfl
    rw [h1, ih, lookup_answersStep]
    constructor
    · rintro (((hq | hinit)) | ⟨q2, hq2, hc⟩)
      · exact Or.inr ⟨q, List.mem_cons_self q qs, hq⟩
      · exact Or.inl hinit
      · exact Or.inr ⟨q2, List.mem_cons_of_mem q hq2, hc⟩
    · rintro (hinit | ⟨q2, hq2, hc⟩)
      · exact Or.inl (Or.inr hinit)
      · rcases List.mem_cons.mp hq2 with rfl | hq2
        · exact Or.inl (Or.inl hc)
        · exact Or.inr ⟨q2, hq2, hc⟩

theorem applyCorrect_fields (q : Question) :
    (applyCorrect q).type = q.type ∧ (applyCorrect q).number = q.number ∧
    (applyCorrect q).options = q.options ∧ (applyCorrect q).passage = q.passage := by
  unfold applyCorrect
  split
  · split <;> exact ⟨rfl, rfl, rfl, rfl⟩
  · exact ⟨rfl, rfl, rfl, rfl⟩

theorem applyCorrect_correctAnswer (q : Question) (h : mcqWithCorrect q = true) :
    (applyCorrect q).correctAnswer ≠ none := by
  unfold mcqWithCorrect at h
  unfold applyCorrect
  by_cases ht : q.type = QType.multiple_choice
  · simp only [ht, if_true]
    cases hf : q.options.find? (fun o => o.isCorrect) with
    | none => simp [ht, hf] at h
    | some o => simp
  · simp [ht] at h

theorem mcqWithCorrect_iff (q : Question) :
    mcqWithCorrect q = true ↔
      q.type = QType.multiple_choice ∧ q.options.any (fun o => o.isCorrect) = true := by
  unfold mcqWithCorrect
  by_cases ht : q.type = QType.multiple_choice
  · simp only [ht, if_true, true_and]
    rw [List.find?_isSome, List.any_eq_true]
  · simp [ht]

/-- C2 (counterexample): the parse of a free-response question with an
explicit answer line yields a question numbered one with a non-null correct
answer while the answers mapping holds no entry for one, refuting the
claimed biconditional. -/
theorem C2_counterexample :
    ((parseQuestionsFromParagraphs scenarioC2 emptyExamData).questions.map
      (fun q => (q.number, q.correctAnswer)) = [(1, some "xyz")]) ∧
    lookupAnswer (parseQuestionsFromParagraphs scenarioC2 emptyExamData).answers 1 =
      none := by decide

/-- C2 (amended): the answers mapping holds an entry for N exactly when some
returned Question numbered N is multiple choice with an inferred-correct
option; any such entry implies a Question numbered N with non-null correct
answer, but a free-response Question whose correct answer came from an
explicit answer line has no entry. -/
theorem C2_amended : ∀ (ps : List ParagraphData) (n : Nat),
    ((lookupAnswer (parseQuestionsFromParagraphs ps emptyExamData).answers n).isSome = true ↔
      ∃ q ∈ (parseQuestionsFromParagraphs ps emptyExamData).questions,
        q.type = QType.multiple_choice ∧ q.number = n ∧
        q.options.any (fun o => o.isCorrect) = true) ∧
    ((lookupAnswer (parseQuestionsFromParagraphs ps emptyExamData).answers n).isSome = true →
      ∃ q ∈ (parseQuestionsFromParagraphs ps emptyExamData).questions,
        q.number = n ∧ q.correctAnswer ≠ none) := by
  intro ps n
  rw [parse_answers_eq, parse_questions_eq]
  have hmem : ∀ q : Question,
      q ∈ sortK qKey ((collectedQuestions ps emptyExamData.questions).map applyCorrect) ↔
      q ∈ (collectedQuestions ps emptyExamData.questions).map applyCorrect :=
    fun q => (sortK_perm qKey _).mem_iff
  have hiff : (lookupAnswer (answersOf emptyExamData.answers
        (collectedQuestions ps emptyExamData.questions)) n).isSome = true ↔
      ∃ q ∈ collectedQuestions ps emptyExamData.questions,
        mcqWithCorrect q = true ∧ q.number = n := by
    rw [lookup_answersOf]
    simp [emptyExamData, lookupAnswer]
  constructor
  · rw [hiff]
    constructor
    · rintro ⟨q, hq, hc, hn⟩
      refine ⟨applyCorrect q, (hmem _).mpr (List.mem_map_of_mem applyCorrect hq), ?_, ?_, ?_⟩
      · rw [(applyCorrect_fields q).1]
        exact (mcqWithCorrect_iff q).mp hc |>.1
      · rw [(applyCorrect_fields q).2.1]; exact hn
      · rw [(applyCorrect_fields q).2.2.1]
        exact (mcqWithCorrect_iff q).mp hc |>.2
    · rintro ⟨q, hq, ht, hn, ha⟩
      rcases List.mem_map.mp ((hmem q).mp hq) with ⟨q0, hq0, rfl⟩
      refine ⟨q0, hq0, ?_, ?_⟩
      · rw [mcqWithCorrect_iff]
        refine ⟨?_, ?_⟩
        · rw [← (applyCorrect_fields q0).1]; exact ht
        · rw [← (applyCorrect_fields q0).2.2.1]; exact ha
      · rw [← (applyCorrect_fields q0).2.1]; exact hn
  · intro h
    rcases hiff.mp h with ⟨q, hq, hc, hn⟩
    refine ⟨applyCorrect q, (hmem _).mpr (List.mem_map_of_mem applyCorrect hq), ?_, ?_⟩
    · rw [(applyCorrect_fields q).2.1]; exact hn
    · exact applyCorrect_correctAnswer q hc

/-- C2 witness: the amended equivalence applied to a highlighted
multiple-choice line, exhibiting the entry for question one. -/
theorem C2_witness :
    (lookupAnswer (parseQuestionsFromParagraphs scenarioMCQ emptyExamData).answers 1).isSome =
      true :=
  (C2_amended scenarioMCQ 1).1.mpr (by decide)

/-! ## Claim C5 -/

theorem firstSeenKeys_append (qs : List Question) (q : Question) :
    firstSeenKeys (qs ++ [q]) =
      if sectionKey q ∈ firstSeenKeys qs then firstSeenKeys qs
      else firstSeenKeys qs ++ [sectionKey q] := by
  unfold firstSeenKeys
  rw [List.foldl_append]
  rfl

theorem sectionBuckets_append (qs : List Question) (q : Question) :
    sectionBuckets (qs ++ [q]) = bucketsAdd (sectionBuckets qs) (sectionKey q) q := by
  unfold sectionBuckets
  rw [List.foldl_append]
  rfl

theorem mem_firstSeenKeys (qs : List Question) (x : String) :
    x ∈ firstSeenKeys qs ↔ ∃ q ∈ qs, sectionKey q = x := by
  induction qs using List.reverseRecOn with
  | nil => simp [firstSeenKeys]
  | append_singleton qs q ih =>
    rw [firstSeenKeys_append]
    by_cases hk : sectionKey q ∈ firstSeenKeys qs
    · simp only [hk, if_true]
      rw [ih]
      constructor
      · rintro ⟨q2, hq2, hx⟩
        exact ⟨q2, List.mem_append_left _ hq2, hx⟩
      · rintro ⟨q2, hq2, hx⟩
        rcases List.mem_append.mp hq2 with hq2 | hq2
        · exact ⟨q2, hq2, hx⟩
        · rcases List.mem_singleton.mp hq2 with rfl
          exact ih.mp (hx ▸ hk)
    · simp only [hk, if_false]
      constructor
      · intro hmem
        rcases List.mem_append.mp hmem with hmem | hmem
        · rcases ih.mp hmem with ⟨q2, hq2, hx⟩
          exact ⟨q2, List.mem_append_left _ hq2, hx⟩
        · rcases List.mem_singleton.mp hmem with rfl
          exact ⟨q, List.mem_append_right _ (List.mem_singleton_self q), rfl⟩
      · rintro ⟨q2, hq2, hx⟩
        rcases List.mem_append.mp hq2 with hq2 | hq2
        · exact List.mem_append_left _ (ih.mpr ⟨q2, hq2, hx⟩)
        · rcases List.mem_singleton.mp hq2 with rfl
          exact List.mem_append_right _ (List.mem_singleton.mpr hx.symm)

theorem nodup_firstSeenKeys (qs : List Question) : (firstSeenKeys qs).Nodup := by
  induction qs using List.reverseRecOn with
  | nil => simp [firstSeenKeys]
  | append_singleton qs q ih =>
    rw [firstSeenKeys_append]
    by_cases hk : sectionKey q ∈ firstSeenKeys qs
    · simpa [hk] using ih
    · simp only [hk, if_false]
      rw [List.nodup_append]
      refine ⟨ih, List.nodup_singleton _, ?_⟩
      intro x hx hx1
      rcases List.mem_singleton.mp hx1 with rfl
      exact hk hx

theorem bucketsAdd_map (keys : List String) (f : String → List Question)
    (k : String) (q : Question) (hnd : keys.Nodup) :
    bucketsAdd (keys.map (fun x => (x, f x))) k q =
      if k ∈ keys then keys.map (fun x => (x, f x ++ if x = k then [q] else []))
      else keys.map (fun x => (x, f x)) ++ [(k, [q])] := by
  induction keys with
  | nil => simp [bucketsAdd]
  | cons k0 rest ih =>
    rcases List.nodup_cons.mp hnd with ⟨hk0, hrest⟩
    by_cases he : k0 = k
    · subst he
      simp only [List.map_cons, bucketsAdd, if_pos rfl, List.mem_cons, true_or, if_true]
      congr 1
      refine (List.map_congr_left ?_).symm
      intro x hx
      have : ¬ x = k0 := fun h => hk0 (h ▸ hx)
      simp [this]
    · have hne : ¬ (k0 = k) := he
      simp only [List.map_cons, bucketsAdd, if_neg hne, ih hrest]
      by_cases hm : k ∈ rest
      · have : k ∈ k0 :: rest := List.mem_cons_of_mem _ hm
        simp only [hm, if_true, List.mem_cons, this, or_true]
        simp [hne, he]
      · have : ¬ k ∈ k0 :: rest := by
          intro h
          rcases List.mem_cons.mp h with h | h
          · exact hne h.symm
          · exact hm h
        simp [hm, this]

theorem sectionBuckets_eq (qs : List Question) :
    sectionBuckets qs =
      (firstSeenKeys qs).map
        (fun k => (k, qs.filter (fun q => sectionKey q == k))) := by
  induction qs using List.reverseRecOn with
  | nil => simp [sectionBuckets, firstSeenKeys]
  | append_singleton qs q ih =>
    rw [sectionBuckets_append, ih,
      bucketsAdd_map (firstSeenKeys qs) _ (sectionKey q) q (nodup_firstSeenKeys qs),
      firstSeenKeys_append]
    by_cases hk : sectionKey q ∈ firstSeenKeys qs
    · simp only [hk, if_true]
      refine List.map_congr_left ?_
      intro x hx
      by_cases hqx : sectionKey q = x
      · subst hqx
        simp [List.filter_append, List.filter_cons]
      · have hx2 : ¬ x = sectionKey q := fun h => hqx h.symm
        simp [List.filter_append, List.filter_cons, hqx, hx2]
    · simp only [hk, if_false, List.map_append]
      congr 1
      · refine List.map_congr_left ?_
        intro x hx
        have hne : ¬ sectionKey q = x := by
          intro h
          exact hk (h ▸ hx)
        have hx2 : ¬ x = sectionKey q := fun h => hne h.symm
        simp [List.filter_append, List.filter_cons, hne, hx2]
      · have h1 : qs.filter (fun q2 => sectionKey q2 == sectionKey q) = [] := by
          refine List.filter_eq_nil_iff.mpr ?_
          intro a ha h
          have hkey : sectionKey a = sectionKey q := by
            simpa using h
          exact hk ((mem_firstSeenKeys qs (sectionKey q)).mpr ⟨a, ha, hkey⟩)
        simp [List.filter_append, List.filter_cons, h1]

/-- C5 (counterexample): parsing a question placed before the section header
yields the sorted numbers one, two, three with section keys A, default, A;
the grouper merges the two non-adjacent A-keyed questions into one section,
whose question numbers one and three are not a contiguous slice of the
sorted list, and only two sections result where the claim demands three. -/
theorem C5_counterexample :
    ((parseQuestionsFromParagraphs scenarioC5 emptyExamData).questions.map
      (fun q => q.number) = [1, 2, 3]) ∧
    ((parseQuestionsFromParagraphs scenarioC5 emptyExamData).sections.map
      (fun s => s.questions.map (fun q => q.number)) = [[1, 3], [2]]) ∧
    isBlockOf [1, 3] [1, 2, 3] = false := by decide

/-- C5 (amended): the grouper buckets ALL Questions sharing a key (section
letter-name, or the default key) into a single Section, one Section per
distinct key in first-seen order, each Section carrying the subsequence of
all Questions with that key in list order; two non-adjacent blocks with the
same key therefore yield one Section, not two, and a Section's questions
need not be contiguous in the sorted list. -/
theorem C5_amended : ∀ e : ExamData,
    (groupQuestionsIntoSections e).sections =
      e.sections ++ (firstSeenKeys e.questions).map
        (fun k => buildSection (e.questions.filter (fun q => sectionKey q == k))) := by
  intro e
  unfold groupQuestionsIntoSections
  rw [sectionBuckets_eq, List.map_map]
  rfl

/-! ## Claim C6 -/

/-- C6: for every input, the returned Question list is sorted by ascending
number; it is a permutation of the pre-sort list built by the classifier and
the answer-key pass, so duplicate numbers are all preserved, none merged or
dropped; and for every number the questions carrying it appear in their
original insertion order (the sort is stable). -/
theorem C6_sorted_stable : ∀ ps : List ParagraphData,
    (parseQuestionsFromParagraphs ps emptyExamData).questions.Pairwise
      (fun a b => a.number ≤ b.number) ∧
    (parseQuestionsFromParagraphs ps emptyExamData).questions.Perm
      ((collectedQuestions ps []).map applyCorrect) ∧
    ∀ n : Nat,
      (parseQuestionsFromParagraphs ps emptyExamData).questions.filter
          (fun q => q.number == n) =
        ((collectedQuestions ps []).map applyCorrect).filter (fun q => q.number == n) := by
  intro ps
  rw [parse_questions_eq]
  refine ⟨sortK_pairwise qKey _, sortK_perm qKey _, ?_⟩
  intro n
  exact sortK_filter qKey n _

/-! ## Claim C7 -/

theorem letters_any_iff (q : Question) (c : Char) :
    q.options.any (fun o => o.letter = c) = true ↔
      c ∈ q.options.map (fun o => o.letter) := by
  simp [List.any_eq_true, List.mem_map]

theorem mem_letters_addOptionsLoop (cs : List Char) (runs : List ParagraphRun)
    (lineLen : Nat) (ms : List OptMatch) (q : Question) (c : Char)
    (h : c ∈ q.options.map (fun o => o.letter)) :
    c ∈ (addOptionsLoop cs runs lineLen ms q).options.map (fun o => o.letter) := by
  induction ms generalizing q with
  | nil => simpa [addOptionsLoop] using h
  | cons m rest ih =>
    unfold addOptionsLoop
    split
    · exact ih q h
    · refine ih _ ?_
      simp only [List.map_append]
      exact List.mem_append_left _ h

theorem coversMatches_addOptionsLoop (cs : List Char) (runs : List ParagraphRun)
    (lineLen : Nat) (ms : List OptMatch) (q : Question) :
    coversMatches cs lineLen ms (addOptionsLoop cs runs lineLen ms q) = true := by
  induction ms generalizing q with
  | nil => rfl
  | cons m rest ih =>
    unfold addOptionsLoop coversMatches
    split
    case isTrue hc =>
      rw [Bool.and_eq_true]
      refine ⟨?_, ih q⟩
      rcases Bool.or_eq_true_iff.mp hc with hany | hempty
      · rw [Bool.or_eq_true_iff]
        refine Or.inl ?_
        rw [letters_any_iff]
        exact mem_letters_addOptionsLoop cs runs lineLen rest q m.letter
          ((letters_any_iff q m.letter).mp hany)
      · rw [Bool.or_eq_true_iff]
        exact Or.inr hempty
    case isFalse hc =>
      rw [Bool.and_eq_true]
      constructor
      · rw [Bool.or_eq_true_iff]
        refine Or.inl ?_
        rw [letters_any_iff]
        refine mem_letters_addOptionsLoop cs runs lineLen rest _ m.letter ?_
        simp
      · exact ih _

theorem coversMatches_mono (cs : List Char) (lineLen : Nat) (ms : List OptMatch)
    (q q2 : Question)
    (hsub : ∀ c, c ∈ q.options.map (fun o => o.letter) →
      c ∈ q2.options.map (fun o => o.letter))
    (h : coversMatches cs lineLen ms q = true) :
    coversMatches cs lineLen ms q2 = true := by
  induction ms with
  | nil => rfl
  | cons m rest ih =>
    unfold coversMatches at h ⊢
    rw [Bool.and_eq_true] at h ⊢
    refine ⟨?_, ih h.2⟩
    rcases Bool.or_eq_true_iff.mp h.1 with hany | hempty
    · rw [Bool.or_eq_true_iff]
      refine Or.inl ?_
      rw [letters_any_iff]
      exact hsub m.letter ((letters_any_iff q m.letter).mp hany)
    · rw [Bool.or_eq_true_iff]
      exact Or.inr hempty

theorem addOptionsLoop_of_covers (cs : List Char) (runs : List ParagraphRun)
    (lineLen : Nat) (ms : List OptMatch) (q : Question)
    (h : coversMatches cs lineLen ms q = true) :
    addOptionsLoop cs runs lineLen ms q = q := by
  induction ms with
  | nil => rfl
  | cons m rest ih =>
    unfold coversMatches at h
    rw [Bool.and_eq_true] at h
    unfold addOptionsLoop
    rw [if_pos h.1]
    exact ih h.2

theorem nodup_letters_addOptionsLoop (cs : List Char) (runs : List ParagraphRun)
    (lineLen : Nat) (ms : List OptMatch) (q : Question)
    (h : (q.options.map (fun o => o.letter)).Nodup) :
    ((addOptionsLoop cs runs lineLen ms q).options.map (fun o => o.letter)).Nodup := by
  induction ms generalizing q with
  | nil => simpa [addOptionsLoop] using h
  | cons m rest ih =>
    unfold addOptionsLoop
    split
    case isTrue hc => exact ih q h
    case isFalse hc =>
      refine ih _ ?_
      rw [Bool.or_eq_true_iff] at hc
      push_neg at hc
      have hnot : ¬ m.letter ∈ q.options.map (fun o => o.letter) := by
        intro hmem
        exact hc.1 ((letters_any_iff q m.letter).mpr hmem)
      simp only [List.map_append, List.map_cons, List.map_nil]
      rw [List.nodup_append]
      refine ⟨h, List.nodup_singleton _, ?_⟩
      intro c hcm hc1
      rcases List.mem_singleton.mp hc1 with rfl
      exact hnot hcm

theorem extract_id_of_empty (p : ParagraphData) (q : Question)
    (h : (findOptionMatches p.text.data).isEmpty = true) :
    extractOptionsWithUnderline p q = q := by
  simp [extractOptionsWithUnderline, h]

theorem extract_options_eq (p : ParagraphData) (q : Question)
    (h : (findOptionMatches p.text.data).isEmpty = false) :
    (extractOptionsWithUnderline p q).options =
      sortK optKey (addOptionsLoop p.text.data p.runs p.text.data.length
        (findOptionMatches p.text.data) q).options := by
  simp only [extractOptionsWithUnderline, h, Bool.false_eq_true, if_false]
  split <;> rfl

/-- C7: starting from a question whose options are sorted by letter without
duplicate letters, any invocation of the option extractor returns options
sorted by letter without duplicate letters, and a second invocation on the
same line adds no option: the option list is unchanged. -/
theorem C7_options_invariant : ∀ (p : ParagraphData) (q : Question),
    q.options.Pairwise (fun a b => optKey a ≤ optKey b) →
    (q.options.map (fun o => o.letter)).Nodup →
    ((extractOptionsWithUnderline p q).options.Pairwise (fun a b => optKey a ≤ optKey b) ∧
     ((extractOptionsWithUnderline p q).options.map (fun o => o.letter)).Nodup ∧
     (extractOptionsWithUnderline p (extractOptionsWithUnderline p q)).options =
       (extractOptionsWithUnderline p q).options) := by
  intro p q h1 h2
  cases hms : (findOptionMatches p.text.data).isEmpty with
  | true =>
    have he : extractOptionsWithUnderline p q = q := extract_id_of_empty p q hms
    refine ⟨?_, ?_, ?_⟩
    · rw [he]; exact h1
    · rw [he]; exact h2
    · rw [he, he]
  | false =>
    have hopts := extract_options_eq p q hms
    have hperm : ((extractOptionsWithUnderline p q).options).Perm
        (addOptionsLoop p.text.data p.runs p.text.data.length
          (findOptionMatches p.text.data) q).options := by
      rw [hopts]; exact sortK_perm optKey _
    refine ⟨?_, ?_, ?_⟩
    · rw [hopts]; exact sortK_pairwise optKey _
    · refine (List.Perm.nodup_iff (hperm.map (fun o => o.letter))).mpr ?_
      exact nodup_letters_addOptionsLoop _ _ _ _ _ h2
    · have hcov : coversMatches p.text.data p.text.data.length
          (findOptionMatches p.text.data) (extractOptionsWithUnderline p q) = true := by
        refine coversMatches_mono _ _ _ _ _ ?_
          (coversMatches_addOptionsLoop p.text.data p.runs p.text.data.length
            (findOptionMatches p.text.data) q)
        intro c hcm
        exact (hperm.map (fun o => o.letter)).mem_iff.mpr hcm
      have hid : addOptionsLoop p.text.data p.runs p.text.data.length
          (findOptionMatches p.text.data) (extractOptionsWithUnderline p q) =
          extractOptionsWithUnderline p q :=
        addOptionsLoop_of_covers _ _ _ _ _ hcov
      rw [extract_options_eq p _ hms, hid, hopts]
      exact sortK_sorted_id optKey _ (sortK_pairwise optKey _)

/-- C7 witness: the invariant applied to a fresh question and a two-option
line. -/
theorem C7_witness :
    ((extractOptionsWithUnderline (plainPara "A. ant B. bee") freshQuestion).options.Pairwise
      (fun a b => optKey a ≤ optKey b) ∧
     ((extractOptionsWithUnderline (plainPara "A. ant B. bee") freshQuestion).options.map
      (fun o => o.letter)).Nodup ∧
     (extractOptionsWithUnderline (plainPara "A. ant B. bee")
        (extractOptionsWithUnderline (plainPara "A. ant B. bee") freshQuestion)).options =
       (extractOptionsWithUnderline (plainPara "A. ant B. bee") freshQuestion).options) :=
  C7_options_invariant (plainPara "A. ant B. bee") freshQuestion (by decide) (by decide)

/-! ## Claim C10 -/

theorem addOptionsLoop_passage (cs : List Char) (runs : List ParagraphRun)
    (lineLen : Nat) (ms : List OptMatch) (q : Question) :
    (addOptionsLoop cs runs lineLen ms q).passage = q.passage := by
  induction ms generalizing q with
  | nil => rfl
  | cons m rest ih =>
    unfold addOptionsLoop
    split
    · exact ih q
    · rw [ih]

theorem extract_passage (p : ParagraphData) (q : Question) :
    (extractOptionsWithUnderline p q).passage = q.passage := by
  simp only [extractOptionsWithUnderline]
  split
  · rfl
  · split <;> simp [addOptionsLoop_passage]

theorem resolveType_passage (q : Question) : (resolveType q).passage = q.passage := by
  unfold resolveType
  split <;> rfl

theorem append_newline_ne_empty (s : String) : s ++ "\n" ≠ "" := by
  intro h
  have h2 : s.data ++ ['\n'] = [] := by
    have h3 : (s ++ "\n").data = ("" : String).data := congrArg String.data h
    rw [String.data_append] at h3
    exact h3
  exact List.cons_ne_nil _ _ (List.append_eq_nil.mp h2).2

theorem stepRest_spec : ∀ (st : ParseState) (pData : ParagraphData) (line : String)
    (cs : List Char),
    ((stepRest st pData line cs).readingPassage = st.readingPassage) ∧
    (∀ q : Question, (stepRest st pData line cs).currentQuestion = some q →
      (∃ q0, st.currentQuestion = some q0 ∧ q.passage = q0.passage) ∨
      q.passage = st.readingPassage) ∧
    (∀ q : Question, q ∈ (stepRest st pData line cs).questions →
      q ∈ st.questions ∨
      ∃ q0, st.currentQuestion = some q0 ∧ q.passage = q0.passage) := by
  intro st pData line cs
  simp only [stepRest]
  split
  · -- question start
    refine ⟨rfl, ?_, ?_⟩
    · intro q hq
      have hq2 := Option.some.inj hq
      subst hq2
      exact Or.inr (by rw [extract_passage])
    · intro q hq
      split at hq
      · rename_i cq hcq
        rcases List.mem_append.mp hq with hq | hq
        · exact Or.inl hq
        · rcases List.mem_singleton.mp hq with rfl
          exact Or.inr ⟨cq, hcq, resolveType_passage cq⟩
      · exact Or.inl hq
  · split
    · -- option line
      refine ⟨rfl, ?_, fun q hq => Or.inl hq⟩
      intro q hq
      rcases Option.map_eq_some'.mp hq with ⟨cq, hcq, hfa⟩
      subst hfa
      exact Or.inl ⟨cq, hcq, extract_passage pData cq⟩
    · split
      · -- explicit answer line
        rename_i capv cqv heqAns heqCq
        refine ⟨rfl, ?_, fun q hq => Or.inl hq⟩
        intro q hq
        have hq2 := Option.some.inj hq
        subst hq2
        refine Or.inl ⟨cqv, heqCq, ?_⟩
        split <;> rfl
      · -- continuation or discard
        split
        · rename_i cq hcq
          refine ⟨rfl, ?_, fun q hq => Or.inl hq⟩
          intro q hq
          have hq2 := Option.some.inj hq
          subst hq2
          exact Or.inl ⟨cq, hcq, rfl⟩
        · rename_i hcq
          refine ⟨rfl, ?_, fun q hq => Or.inl hq⟩
          intro q hq
          rw [hcq] at hq
          cases hq

/-- C10: the accumulated reading passage is never reset to empty once
nonempty (a passage start replaces it by a nonempty value, a continuation
appends, nothing clears it); any line that is not a passage start leaves the
passage unchanged or appends that line; the in-progress question after a
step carries either the passage snapshot of the previous in-progress
question or the passage accumulated before the step (so every question
created after a passage block carries the accumulated text until a new
passage start replaces it); and a question moved to the finished list was
already finished or keeps the previous in-progress question's passage. -/
theorem C10_passage_invariant : ∀ (st : ParseState) (p : ParagraphData),
    (st.readingPassage ≠ "" → (step st p).readingPassage ≠ "") ∧
    (isPassageStart (jsTrim p.text).data = false →
      (step st p).readingPassage = st.readingPassage ∨
      (step st p).readingPassage = st.readingPassage ++ jsTrim p.text ++ "\n") ∧
    (∀ q : Question, (step st p).currentQuestion = some q →
      (∃ q0, st.currentQuestion = some q0 ∧ q.passage = q0.passage) ∨
      q.passage = st.readingPassage) ∧
    (∀ q : Question, q ∈ (step st p).questions →
      q ∈ st.questions ∨
      ∃ q0, st.currentQuestion = some q0 ∧ q.passage = q0.passage) := by
  intro st p
  simp only [step]
  split
  · -- empty trimmed line: the state is unchanged
    exact ⟨fun h => h, fun _ => Or.inl rfl, fun q hq => Or.inl ⟨q, hq, rfl⟩,
      fun q hq => Or.inl hq⟩
  · split
    · -- section header
      exact ⟨fun h => h, fun _ => Or.inl rfl, fun q hq => Or.inl ⟨q, hq, rfl⟩,
        fun q hq => Or.inl hq⟩
    · split
      · -- part header
        exact ⟨fun h => h, fun _ => Or.inl rfl, fun q hq => Or.inl ⟨q, hq, rfl⟩,
          fun q hq => Or.inl hq⟩
      · split
        · -- passage start
          rename_i hps
          refine ⟨fun _ => append_newline_ne_empty _, ?_,
            fun q hq => Or.inl ⟨q, hq, rfl⟩, fun q hq => Or.inl hq⟩
          intro hF
          rw [hF] at hps
          exact absurd hps (by simp)
        · split
          · -- passage continuation
            exact ⟨fun _ => append_newline_ne_empty _, fun _ => Or.inr rfl,
              fun q hq => Or.inl ⟨q, hq, rfl⟩, fun q hq => Or.inl hq⟩
          · -- the remaining rules, via the tail function
            split
            · -- question test positive: inReading cleared first
              obtain ⟨hrp, hcq, hqs⟩ :=
                stepRest_spec { st with inReading := false } p (jsTrim p.text)
                  (jsTrim p.text).data
              refine ⟨?_, ?_, ?_, ?_⟩
              · intro h
                rw [hrp]
                exact h
              · intro _
                exact Or.inl hrp
              · intro q hq
                rcases hcq q hq with ⟨q0, hq0, hp⟩ | hp
                · exact Or.inl ⟨q0, hq0, hp⟩
                · exact Or.inr hp
              · intro q hq
                rcases hqs q hq with hq | ⟨q0, hq0, hp⟩
                · exact Or.inl hq
                · exact Or.inr ⟨q0, hq0, hp⟩
            · -- question test negative
              obtain ⟨hrp, hcq, hqs⟩ :=
                stepRest_spec st p (jsTrim p.text) (jsTrim p.text).data
              refine ⟨?_, ?_, ?_, ?_⟩
              · intro h
                rw [hrp]
                exact h
              · intro _
                exact Or.inl hrp
              · exact hcq
              · exact hqs

/-- C10 witness: the invariant applied to a context holding an accumulated
passage and a question-start paragraph. -/
theorem C10_witness :
    (step witnessState (plainPara "Câu 9. Why was the gift surprising?")).readingPassage ≠
      "" :=
  (C10_passage_invariant witnessState (plainPara "Câu 9. Why was the gift surprising?")).1
    (by decide)

/-! ## Claim C8 -/

theorem goodChar_spec (c : Char) (h : goodChar c = true) :
    ¬ c = '&' ∧ ¬ c = '<' ∧ ¬ c = '>' ∧ ¬ c.toNat = 0xA0 ∧ isJsWs c = false := by
  unfold goodChar at h
  simp only [Bool.and_eq_true, Bool.not_eq_true', decide_eq_false_iff_not] at h
  refine ⟨h.1.1.1.1, h.1.1.1.2, h.1.1.2, h.1.2, h.2⟩

theorem escape_id (p : List Char) (h : ∀ c ∈ p, goodChar c = true) :
    escapeHtmlChars p = p := by
  induction p with
  | nil => rfl
  | cons c rest ih =>
    have hc := goodChar_spec c (h c (List.mem_cons_self c rest))
    have hone : escapeHtmlChar c = [c] := by
      unfold escapeHtmlChar
      rw [if_neg hc.1, if_neg hc.2.1, if_neg hc.2.2.1, if_neg hc.2.2.2.1]
    show escapeHtmlChar c ++ escapeHtmlChars rest = c :: rest
    rw [hone, ih (fun d hd => h d (List.mem_cons_of_mem c hd))]
    rfl

theorem stripTagsAux_cons (b : Bool) (c : Char) (rest : List Char) :
    stripTagsAux b (c :: rest) =
      if c = '<' then stripTagsAux true rest
      else if c = '>' then stripTagsAux false rest
      else if b then stripTagsAux true rest
      else c :: stripTagsAux false rest := rfl

theorem stripTagsAux_no_angle (p : List Char) (h : ∀ c ∈ p, goodChar c = true)
    (xs : List Char) :
    stripTagsAux false (p ++ xs) = p ++ stripTagsAux false xs := by
  induction p with
  | nil => rfl
  | cons c rest ih =>
    have hc := goodChar_spec c (h c (List.mem_cons_self c rest))
    show stripTagsAux false (c :: (rest ++ xs)) = c :: (rest ++ stripTagsAux false xs)
    rw [stripTagsAux_cons, if_neg hc.2.1, if_neg hc.2.2.1,
      if_neg (by decide : ¬ (false = true)),
      ih (fun d hd => h d (List.mem_cons_of_mem c hd))]

theorem stripTagsAux_inTag (mid : List Char) (h : ∀ c ∈ mid, ¬ c = '>')
    (xs : List Char) :
    stripTagsAux true (mid ++ '>' :: xs) = stripTagsAux false xs := by
  induction mid with
  | nil =>
    show stripTagsAux true ('>' :: xs) = stripTagsAux false xs
    rw [stripTagsAux_cons, if_neg (by decide : ¬ ('>' : Char) = '<'), if_pos rfl]
  | cons c rest ih =>
    have hc := h c (List.mem_cons_self c rest)
    show stripTagsAux true (c :: (rest ++ '>' :: xs)) = stripTagsAux false xs
    rw [stripTagsAux_cons]
    by_cases hlt : c = '<'
    · rw [if_pos hlt]
      exact ih (fun d hd => h d (List.mem_cons_of_mem c hd))
    · rw [if_neg hlt, if_neg hc, if_pos rfl]
      exact ih (fun d hd => h d (List.mem_cons_of_mem c hd))

theorem strip_tag_chunk (t mid : List Char) (hdec : t = '<' :: mid ++ ['>'])
    (hmid : ∀ c ∈ mid, ¬ c = '>') (xs : List Char) :
    stripTagsAux false (t ++ xs) = stripTagsAux false xs := by
  subst hdec
  have h1 : ('<' :: mid ++ ['>']) ++ xs = '<' :: (mid ++ '>' :: xs) := by simp
  rw [h1, stripTagsAux_cons, if_pos rfl]
  exact stripTagsAux_inTag mid hmid xs

theorem strip_spanOpen (xs : List Char) :
    stripTagsAux false (spanOpen ++ xs) = stripTagsAux false xs :=
  strip_tag_chunk spanOpen "span class=\"underlined-part\"".data (by decide)
    (by decide) xs

theorem strip_spanClose (xs : List Char) :
    stripTagsAux false (spanClose ++ xs) = stripTagsAux false xs :=
  strip_tag_chunk spanClose "/span".data (by decide) (by decide) xs

theorem strip_strongOpen (xs : List Char) :
    stripTagsAux false (strongOpen ++ xs) = stripTagsAux false xs :=
  strip_tag_chunk strongOpen "strong".data (by decide) (by decide) xs

theorem strip_strongClose (xs : List Char) :
    stripTagsAux false (strongClose ++ xs) = stripTagsAux false xs :=
  strip_tag_chunk strongClose "/strong".data (by decide) (by decide) xs

theorem strip_wrapFormatted (r : ParagraphRun) (p : List Char)
    (h : ∀ c ∈ p, goodChar c = true) (xs : List Char) :
    stripTagsAux false (wrapFormatted r p ++ xs) = p ++ stripTagsAux false xs := by
  unfold wrapFormatted
  rw [escape_id p h]
  split
  · simp only [List.append_assoc]
    rw [strip_spanOpen, strip_strongOpen, stripTagsAux_no_angle p h,
      strip_strongClose, strip_spanClose]
  · split
    · simp only [List.append_assoc]
      rw [strip_spanOpen, stripTagsAux_no_angle p h, strip_spanClose]
    · split
      · simp only [List.append_assoc]
        rw [strip_strongOpen, stripTagsAux_no_angle p h, strip_strongClose]
      · exact stripTagsAux_no_angle p h xs

theorem core_cons (s e : Nat) (r : ParagraphRun) (rest : List ParagraphRun) :
    buildFormattedTextCore (r :: rest) s e =
      formattedPiece s e r ++ buildFormattedTextCore rest s e := by
  simp [buildFormattedTextCore]

theorem plain_cons (s e : Nat) (r : ParagraphRun) (rest : List ParagraphRun) :
    plainTextOf (r :: rest) s e = plainPiece s e r ++ plainTextOf rest s e := by
  simp [plainTextOf]

theorem piece_pair (s e : Nat) (r : ParagraphRun) :
    (formattedPiece s e r = [] ∧ plainPiece s e r = []) ∨
    ((runPortion r s e).isEmpty = false ∧
      formattedPiece s e r = wrapFormatted r (runPortion r s e) ∧
      plainPiece s e r = runPortion r s e) := by
  unfold formattedPiece plainPiece
  split
  · exact Or.inl ⟨rfl, rfl⟩
  · by_cases hp : (runPortion r s e).isEmpty = true
    · rw [if_pos hp, if_pos hp]
      exact Or.inl ⟨rfl, rfl⟩
    · have hp2 : (runPortion r s e).isEmpty = false := by
        cases h2 : (runPortion r s e).isEmpty
        · rfl
        · exact absurd h2 hp
      rw [if_neg (by rw [hp2]; exact Bool.false_ne_true), if_neg (by rw [hp2]; exact Bool.false_ne_true)]
      exact Or.inr ⟨hp2, rfl, rfl⟩

theorem strip_core (s e : Nat) : ∀ runs : List ParagraphRun,
    (∀ c ∈ plainTextOf runs s e, goodChar c = true) →
    stripTagsAux false (buildFormattedTextCore runs s e) = plainTextOf runs s e := by
  intro runs
  induction runs with
  | nil => intro _; rfl
  | cons r rest ih =>
    intro hg
    rw [core_cons, plain_cons]
    rw [plain_cons] at hg
    have hgp : ∀ c ∈ plainPiece s e r, goodChar c = true :=
      fun c hc => hg c (List.mem_append_left _ hc)
    have hgr : ∀ c ∈ plainTextOf rest s e, goodChar c = true :=
      fun c hc => hg c (List.mem_append_right _ hc)
    rcases piece_pair s e r with ⟨hf, hp⟩ | ⟨hne, hf, hp⟩
    · rw [hf, hp]
      simp only [List.nil_append]
      exact ih hgr
    · rw [hf, hp]
      rw [hp] at hgp
      rw [strip_wrapFormatted r (runPortion r s e) hgp, ih hgr]

theorem nd_no_ws (cs : List Char) (h : ∀ c ∈ cs, isJsWs c = false) :
    noDoubleWs cs = true := by
  induction cs with
  | nil => rfl
  | cons x l ih =>
    cases l with
    | nil => rfl
    | cons y l2 =>
      show (!(isJsWs x && isJsWs y) && noDoubleWs (y :: l2)) = true
      rw [Bool.and_eq_true]
      constructor
      · rw [h x (List.mem_cons_self x _)]
        rfl
      · exact ih (fun c hc => h c (List.mem_cons_of_mem x hc))

theorem head?_append_left (a b : List Char) (ha : a ≠ []) :
    (a ++ b).head? = a.head? := by
  cases a with
  | nil => exact absurd rfl ha
  | cons x l => rfl

theorem getLast?_append_right (a b : List Char) (hb : b ≠ []) :
    (a ++ b).getLast? = b.getLast? := by
  rw [← List.head?_reverse, ← List.head?_reverse, List.reverse_append]
  exact head?_append_left _ _ (by simpa using hb)

theorem nd_append (a b : List Char) (ha : noDoubleWs a = true)
    (hb : noDoubleWs b = true)
    (hab : ∀ x y, a.getLast? = some x → b.head? = some y →
      (isJsWs x && isJsWs y) = false) :
    noDoubleWs (a ++ b) = true := by
  induction a with
  | nil => exact hb
  | cons x l ih =>
    cases l with
    | nil =>
      cases b with
      | nil => rfl
      | cons y b2 =>
        show (!(isJsWs x && isJsWs y) && noDoubleWs (y :: b2)) = true
        rw [Bool.and_eq_true]
        refine ⟨?_, hb⟩
        rw [hab x y rfl rfl]
        rfl
    | cons z l2 =>
      show (!(isJsWs x && isJsWs z) && noDoubleWs ((z :: l2) ++ b)) = true
      have h0 : (!(isJsWs x && isJsWs z) && noDoubleWs (z :: l2)) = true := ha
      rw [Bool.and_eq_true] at h0
      rw [Bool.and_eq_true]
      refine ⟨h0.1, ih h0.2 ?_⟩
      intro p q hp hq
      refine hab p q ?_ hq
      rw [List.getLast?_cons_cons]
      exact hp

theorem collapseWsAux_cons (b : Bool) (c : Char) (rest : List Char) :
    collapseWsAux b (c :: rest) =
      if isJsWs c then (if b then [] else [' ']) ++ collapseWsAux true rest
      else c :: collapseWsAux false rest := rfl

theorem collapse_id : ∀ cs : List Char, cs.all wsChar = true →
    noDoubleWs cs = true →
    (collapseWsAux false cs = cs ∧
     ((∀ c, cs.head? = some c → isJsWs c = false) → collapseWsAux true cs = cs)) := by
  intro cs
  induction cs with
  | nil => intro _ _; exact ⟨rfl, fun _ => rfl⟩
  | cons x rest ih =>
    intro hall hnd
    rw [List.all_cons, Bool.and_eq_true] at hall
    have hrest_nd : noDoubleWs rest = true := by
      cases rest with
      | nil => rfl
      | cons y r2 =>
        have h0 : (!(isJsWs x && isJsWs y) && noDoubleWs (y :: r2)) = true := hnd
        rw [Bool.and_eq_true] at h0
        exact h0.2
    obtain ⟨ih1, ih2⟩ := ih hall.2 hrest_nd
    by_cases hws : isJsWs x = true
    · have hsp : x = ' ' := by
        have hx := hall.1
        unfold wsChar at hx
        rcases Bool.or_eq_true_iff.mp hx with h | h
        · rw [Bool.not_eq_true'] at h
          rw [h] at hws
          cases hws
        · exact of_decide_eq_true h
      have hhead : ∀ c, rest.head? = some c → isJsWs c = false := by
        intro c hc
        cases rest with
        | nil => cases hc
        | cons y r2 =>
          have h0 : (!(isJsWs x && isJsWs y) && noDoubleWs (y :: r2)) = true := hnd
          rw [Bool.and_eq_true] at h0
          have h1 := h0.1
          rw [hws] at h1
          have hy : isJsWs y = false := by
            cases h2 : isJsWs y
            · rfl
            · rw [h2] at h1
              cases h1
          have hcy : c = y := by
            cases hc
            rfl
          rw [hcy]
          exact hy
      constructor
      · rw [collapseWsAux_cons, if_pos hws, ih2 hhead, hsp]
        rfl
      · intro h
        have := h x rfl
        rw [this] at hws
        cases hws
    · have hws2 : ¬ (isJsWs x = true) := hws
      constructor
      · rw [collapseWsAux_cons, if_neg hws2, ih1]
      · intro _
        rw [collapseWsAux_cons, if_neg hws2, ih1]

theorem trim_id (cs : List Char)
    (hh : ∀ c, cs.head? = some c → isJsWs c = false)
    (hl : ∀ c, cs.getLast? = some c → isJsWs c = false) :
    trimChars cs = cs := by
  unfold trimChars
  have h1 : cs.dropWhile isJsWs = cs := by
    cases cs with
    | nil => rfl
    | cons x l =>
      rw [List.dropWhile_cons, hh x rfl]
      simp
  rw [h1]
  have h2 : cs.reverse.dropWhile isJsWs = cs.reverse := by
    cases hrev : cs.reverse with
    | nil => rfl
    | cons x l =>
      have hx : isJsWs x = false := by
        apply hl
        rw [← List.head?_reverse, hrev]
        rfl
      rw [List.dropWhile_cons, hx]
      simp
  rw [h2, List.reverse_reverse]

theorem wsChar_of_good (c : Char) (h : goodChar c = true) : wsChar c = true := by
  unfold wsChar
  rw [(goodChar_spec c h).2.2.2.2]
  rfl

theorem chunkOk_concrete (l : List Char) (h1 : l.all wsChar = true)
    (h2 : noDoubleWs l = true) (x y : Char) (hh : l.head? = some x)
    (hx : isJsWs x = false) (hl2 : l.getLast? = some y) (hy : isJsWs y = false) :
    ChunkOk l := by
  refine ⟨h1, h2, ?_, ?_⟩
  · intro c hc
    rw [hh] at hc
    rw [← Option.some.inj hc]
    exact hx
  · intro c hc
    rw [hl2] at hc
    rw [← Option.some.inj hc]
    exact hy

theorem chunk_spanOpen : ChunkOk spanOpen :=
  chunkOk_concrete spanOpen (by decide) (by decide) '<' '>' (by decide) (by decide)
    (by decide) (by decide)

theorem chunk_spanClose : ChunkOk spanClose :=
  chunkOk_concrete spanClose (by decide) (by decide) '<' '>' (by decide) (by decide)
    (by decide) (by decide)

theorem chunk_strongOpen : ChunkOk strongOpen :=
  chunkOk_concrete strongOpen (by decide) (by decide) '<' '>' (by decide) (by decide)
    (by decide) (by decide)

theorem chunk_strongClose : ChunkOk strongClose :=
  chunkOk_concrete strongClose (by decide) (by decide) '<' '>' (by decide) (by decide)
    (by decide) (by decide)

theorem chunk_content (p : List Char) (hg : ∀ c ∈ p, goodChar c = true) :
    ChunkOk p := by
  have hnws : ∀ c ∈ p, isJsWs c = false :=
    fun c hc => (goodChar_spec c (hg c hc)).2.2.2.2
  refine ⟨List.all_eq_true.mpr (fun c hc => wsChar_of_good c (hg c hc)),
    nd_no_ws p hnws, ?_, ?_⟩
  · intro c hc
    exact hnws c (List.mem_of_mem_head? hc)
  · intro c hc
    rcases List.mem_getLast?_eq_getLast hc with ⟨hne, rfl⟩
    exact hnws _ (List.getLast_mem hne)

theorem chunk_append (a b : List Char) (ha : ChunkOk a) (hb : ChunkOk b) :
    ChunkOk (a ++ b) := by
  obtain ⟨ha1, ha2, ha3, ha4⟩ := ha
  obtain ⟨hb1, hb2, hb3, hb4⟩ := hb
  refine ⟨?_, ?_, ?_, ?_⟩
  · rw [List.all_append, Bool.and_eq_true]
    exact ⟨ha1, hb1⟩
  · refine nd_append a b ha2 hb2 ?_
    intro x y hx hy
    rw [ha4 x hx]
    rfl
  · intro c hc
    cases a with
    | nil => exact hb3 c hc
    | cons z l =>
      rw [head?_append_left _ _ (List.cons_ne_nil z l)] at hc
      exact ha3 c hc
  · intro c hc
    cases hbe : b with
    | nil =>
      rw [hbe, List.append_nil] at hc
      exact ha4 c hc
    | cons z l =>
      rw [hbe, getLast?_append_right _ _ (List.cons_ne_nil z l)] at hc
      rw [hbe] at hb4
      exact hb4 c hc

theorem wrap_props (r : ParagraphRun) (p : List Char) (hp : p ≠ [])
    (hg : ∀ c ∈ p, goodChar c = true) :
    ChunkOk (wrapFormatted r p) ∧ wrapFormatted r p ≠ [] := by
  have hc := chunk_content p hg
  unfold wrapFormatted
  rw [escape_id p hg]
  split
  · refine ⟨?_, ?_⟩
    · exact chunk_append _ _ (chunk_append _ _ (chunk_append _ _
        (chunk_append _ _ chunk_spanOpen chunk_strongOpen) hc) chunk_strongClose)
        chunk_spanClose
    · simp [spanOpen]
  · split
    · refine ⟨?_, ?_⟩
      · exact chunk_append _ _ (chunk_append _ _ chunk_spanOpen hc) chunk_spanClose
      · simp [spanOpen]
    · split
      · refine ⟨?_, ?_⟩
        · exact chunk_append _ _ (chunk_append _ _ chunk_strongOpen hc) chunk_strongClose
        · simp [strongOpen]
      · exact ⟨hc, hp⟩

theorem core_props (s e : Nat) : ∀ runs : List ParagraphRun,
    (∀ c ∈ plainTextOf runs s e, goodChar c = true) →
    ChunkOk (buildFormattedTextCore runs s e) := by
  intro runs
  induction runs with
  | nil =>
    intro _
    refine ⟨rfl, rfl, ?_, ?_⟩
    · intro c hc
      cases hc
    · intro c hc
      cases hc
  | cons r rest ih =>
    intro hg
    rw [core_cons]
    rw [plain_cons] at hg
    have hgp : ∀ c ∈ plainPiece s e r, goodChar c = true :=
      fun c hc => hg c (List.mem_append_left _ hc)
    have hgr : ∀ c ∈ plainTextOf rest s e, goodChar c = true :=
      fun c hc => hg c (List.mem_append_right _ hc)
    rcases piece_pair s e r with ⟨hf, _⟩ | ⟨hne, hf, hp⟩
    · rw [hf, List.nil_append]
      exact ih hgr
    · rw [hf]
      have hpne : runPortion r s e ≠ [] := by
        intro h0
        rw [h0] at hne
        cases hne
      rw [hp] at hgp
      exact chunk_append _ _ (wrap_props r (runPortion r s e) hpne hgp).1 (ih hgr)

theorem cleanup_id_of_chunkOk (l : List Char) (h : ChunkOk l) : cleanupWs l = l := by
  unfold cleanupWs
  have h1 := (collapse_id l h.1 h.2.1).1
  have h2 : collapseWs l = l := h1
  rw [h2]
  exact trim_id l h.2.2.1 h.2.2.2

/-- C8 (counterexample): a plain run containing a double space: the builder
collapses the double space, so stripping the (absent) tags from the result
yields a single-spaced string different from the plain content of the
range. -/
theorem C8_counterexample :
    stripTags (buildFormattedText cexC8Runs 0 4) = "a b" ∧
    (⟨plainTextOf cexC8Runs 0 4⟩ : String) = "a  b" ∧
    ("a b" : String) ≠ "a  b" := by decide

/-- C8 (amended): stripping the emitted markup tags from the builder's
result yields exactly the concatenation of the plain text content of the
offset range whenever that content contains no whitespace and no
markup-special characters (ampersand, angle brackets, no-break space); in
general the builder additionally escapes the content and collapses and
trims whitespace, as the counterexample shows. -/
theorem C8_amended : ∀ (runs : List ParagraphRun) (s e : Nat),
    (∀ c ∈ plainTextOf runs s e, goodChar c = true) →
    stripTags (buildFormattedText runs s e) = ⟨plainTextOf runs s e⟩ := by
  intro runs s e hg
  have hchunk := core_props s e runs hg
  have hb : buildFormattedText runs s e = ⟨buildFormattedTextCore runs s e⟩ := by
    unfold buildFormattedText
    rw [cleanup_id_of_chunkOk _ hchunk]
  rw [hb]
  exact congrArg (fun l => (⟨l⟩ : String)) (strip_core s e runs hg)

/-- C8 witness: the amended theorem applied to a plain run followed by a
bold-underlined run. -/
theorem C8_witness :
    stripTags (buildFormattedText witC8Runs 0 6) = ⟨plainTextOf witC8Runs 0 6⟩ :=
  C8_amended witC8Runs 0 6 (by decide)

end DeTiengAnh
